import Mathlib

/-!
Verification of the AVL tree implementation in `avl_tree.py`.

The Python code represents tree positions with two classes: `_EmptyAVLNode`
(the null-object sentinel, height 0) and `_AVLNode` (entry, left, right,
cached height).  We embed positions as the inductive type `Node`.  Methods
that the source defines only on `_AVLNode` (such as `clear`, `min`, `max`)
raise `AttributeError` when Python's attribute lookup fails on the sentinel;
fallible operations are therefore embedded in `Except PyErr` / `Option PyErr`.
Entries are any type with a strict total order, embedded as `[LinearOrder α]`.
-/

namespace AVLPy

/-- Exception classes that the source can raise: `KeyError` (explicit
`raise KeyError(...)`) and `AttributeError` (failed attribute lookup on
`_EmptyAVLNode`, which defines no `clear`, `min` or `max` method). -/
inductive PyErr where
  | keyError : PyErr
  | attributeError : PyErr
deriving DecidableEq, Repr

/-- A tree position: `_EmptyAVLNode` (the `EMPTY_NODE` sentinel) or an
`_AVLNode` with fields `entry`, `left`, `right`, `height` (in source order). -/
inductive Node (α : Type) where
  | empty : Node α
  | node (entry : α) (left : Node α) (right : Node α) (height : Nat) : Node α
deriving DecidableEq, Repr

namespace Node

variable {α : Type}

/-- `height`: field of `_AVLNode`; `_EmptyAVLNode.__init__` sets `height = 0`. -/
def height : Node α → Nat
  | .empty => 0
  | .node _ _ _ h => h

/-- `left` child; the accessor is only applied to `_AVLNode` values in source. -/
def left : Node α → Node α
  | .empty => .empty
  | .node _ l _ _ => l

/-- `right` child; the accessor is only applied to `_AVLNode` values in source. -/
def right : Node α → Node α
  | .empty => .empty
  | .node _ _ r _ => r

/-- `balance_factor`: `left.height - right.height` on `_AVLNode`;
the property on `_EmptyAVLNode` always returns 0. -/
def bf : Node α → Int
  | .empty => 0
  | .node _ l r _ => (l.height : Int) - (r.height : Int)

/-- `__bool__`: `_EmptyAVLNode` is falsy, an `_AVLNode` is truthy
(its `entry` is never `None` for nodes created by `insert`). -/
def toBool : Node α → Bool
  | .empty => false
  | .node _ _ _ _ => true

/-- `__len__`: `0` on `_EmptyAVLNode`, `1 + len(left) + len(right)` on `_AVLNode`. -/
def length : Node α → Nat
  | .empty => 0
  | .node _ l r _ => 1 + l.length + r.length

/-- `is_leaf`: `not (bool(self.left) or bool(self.right))`. -/
def isLeaf : Node α → Bool
  | .empty => true
  | .node _ l r _ => !(l.toBool || r.toBool)

/-- `_update_height`: `self.height = 1 + max(self.left.height, self.right.height)`. -/
def updateHeight : Node α → Node α
  | .empty => .empty
  | .node x l r _ => .node x l r (1 + max l.height r.height)

/-- `_rotate_left`: the right child becomes the new subtree root; its former
left child becomes this position's right child; heights are recomputed child
first.  Only invoked when `balance_factor == -2` (so `right` is a node). -/
def rotateLeft : Node α → Node α
  | .node x l (.node rx rl rr _) _ =>
    let self := Node.node x l rl (1 + max l.height rl.height)
    Node.node rx self rr (1 + max self.height rr.height)
  | t => t

/-- `_rotate_right`: mirror image of `_rotate_left`. -/
def rotateRight : Node α → Node α
  | .node x (.node lx ll lr _) r _ =>
    let self := Node.node x lr r (1 + max lr.height r.height)
    Node.node lx ll self (1 + max ll.height self.height)
  | t => t

/-- `_rotate_left_right`: rotate the left child left, then this position right. -/
def rotateLeftRight : Node α → Node α
  | .node x l r h => Node.rotateRight (.node x l.rotateLeft r h)
  | .empty => .empty

/-- `_rotate_right_left`: rotate the right child right, then this position left. -/
def rotateRightLeft : Node α → Node α
  | .node x l r h => Node.rotateLeft (.node x l r.rotateRight h)
  | .empty => .empty

/-- `_balance_tree_if_unbalanced`: the rotation dispatch, with the double
rotation conditions tested before the single rotation fallbacks. -/
def balanceIfUnbalanced (t : Node α) : Node α :=
  if t.bf = 2 ∧ t.left.bf = -1 then t.rotateLeftRight
  else if t.bf = -2 ∧ t.right.bf = 1 then t.rotateRightLeft
  else if t.bf = -2 then t.rotateLeft
  else if t.bf = 2 then t.rotateRight
  else t

/-- `_balanced_tree`: `self._update_height()` then
`self._balance_tree_if_unbalanced()`. -/
def balancedTree (t : Node α) : Node α :=
  t.updateHeight.balanceIfUnbalanced

/-- `insert`: on `_EmptyAVLNode` return a fresh `_AVLNode(entry)`
(height 1, empty children); on `_AVLNode` recurse by comparison and
return `self._balanced_tree()` (the equal case changes no structure). -/
def insert [LinearOrder α] : Node α → α → Node α
  | .empty, e => .node e .empty .empty 1
  | .node x l r h, e =>
    if e > x then (Node.node x l (r.insert e) h).balancedTree
    else if e < x then (Node.node x (l.insert e) r h).balancedTree
    else (Node.node x l r h).balancedTree

/-- The loop of `max`: `max_entry = self.entry` then walk `right` links. -/
def maxFrom (x : α) : Node α → α
  | .empty => x
  | .node y _ r _ => maxFrom y r

/-- The loop of `min`: `min_entry = self.entry` then walk `left` links. -/
def minFrom (x : α) : Node α → α
  | .empty => x
  | .node y l _ _ => minFrom y l

/-- `delete`: recurse by comparison; on match remove a leaf, substitute the
maximum of a non-empty `left` (then delete it from `left`), or splice `right`;
`_EmptyAVLNode.delete` raises `KeyError(entry)`. -/
def delete [LinearOrder α] : Node α → α → Except PyErr (Node α)
  | .empty, _ => .error .keyError
  | .node x l r h, e =>
    if e > x then do
      let r2 ← r.delete e
      pure (Node.node x l r2 h).balancedTree
    else if e < x then do
      let l2 ← l.delete e
      pure (Node.node x l2 r h).balancedTree
    else if (Node.node x l r h).isLeaf then pure .empty
    else if l.toBool then
      match l with
      | .empty => pure .empty
      | .node lx ll lr lh => do
        let m := maxFrom lx lr
        let l2 ← (Node.node lx ll lr lh).delete m
        pure (Node.node m l2 r h).balancedTree
    else pure r

/-- State-tracking `delete`: second component is the state of the receiver
object after the call (Python mutates `self.entry` / `self.left` /
`self.right` in place).  On success the caller replaces its reference by the
returned position, so only the failure-path state is ever observed. -/
def deleteM [LinearOrder α] : Node α → α → Except PyErr (Node α) × Node α
  | .empty, _ => (.error .keyError, .empty)
  | .node x l r h, e =>
    if e > x then
      let p := r.deleteM e
      match p.1 with
      | .error err => (.error err, .node x l p.2 h)
      | .ok newR => (.ok (Node.node x l newR h).balancedTree, .node x l newR h)
    else if e < x then
      let p := l.deleteM e
      match p.1 with
      | .error err => (.error err, .node x p.2 r h)
      | .ok newL => (.ok (Node.node x newL r h).balancedTree, .node x newL r h)
    else if (Node.node x l r h).isLeaf then (.ok .empty, .node x l r h)
    else if l.toBool then
      match l with
      | .empty => (.ok .empty, .node x l r h)
      | .node lx _ lr _ =>
        let m := maxFrom lx lr
        let p := l.deleteM m
        match p.1 with
        | .error err => (.error err, .node m p.2 r h)
        | .ok newL => (.ok (Node.node m newL r h).balancedTree, .node m newL r h)
    else (.ok r, .node x l r h)

/-- State-tracking `clear` on a position.  `_AVLNode.clear` returns
`EMPTY_NODE` for a leaf, otherwise assigns `self.left = self.left.clear()`
then `self.right = self.right.clear()`; `_EmptyAVLNode` defines no `clear`,
so the attribute lookup raises `AttributeError`.  First component: the raised
error, if any; second: the state of the receiver after the call. -/
def clearM : Node α → Option PyErr × Node α
  | .empty => (some .attributeError, .empty)
  | .node x l r h =>
    if (Node.node x l r h).isLeaf then (none, .node x l r h)
    else
      let p := l.clearM
      match p.1 with
      | some err => (some err, .node x p.2 r h)
      | none =>
        let q := r.clearM
        match q.1 with
        | some err => (some err, .node x .empty q.2 h)
        | none => (none, .node x .empty .empty h)

/-- `pred(self, pred, entry)`: thread the nearest right-turn ancestor as the
candidate; on match take the maximum of a truthy `left`, else the candidate's
entry, else raise `KeyError`; `_EmptyAVLNode.pred` raises `KeyError`. -/
def pred [LinearOrder α] : Node α → Node α → α → Except PyErr α
  | .empty, _, _ => .error .keyError
  | .node x l r h, c, e =>
    if e > x then r.pred (.node x l r h) e
    else if e < x then l.pred c e
    else if l.toBool then
      match l with
      | .empty => .error .keyError
      | .node lx _ lr _ => .ok (maxFrom lx lr)
    else
      match c with
      | .node cx _ _ _ => .ok cx
      | .empty => .error .keyError

/-- `succ(self, succ, entry)`: mirror of `pred` with `right` and the minimum. -/
def succ [LinearOrder α] : Node α → Node α → α → Except PyErr α
  | .empty, _, _ => .error .keyError
  | .node x l r h, c, e =>
    if e > x then r.succ c e
    else if e < x then l.succ (.node x l r h) e
    else if r.toBool then
      match r with
      | .empty => .error .keyError
      | .node rx rl _ _ => .ok (minFrom rx rl)
    else
      match c with
      | .node cx _ _ _ => .ok cx
      | .empty => .error .keyError

/-- The loop of `AVLTree._search`: descend by comparison, raise `KeyError`
when the walk falls off the tree. -/
def search [LinearOrder α] : Node α → α → Except PyErr α
  | .empty, _ => .error .keyError
  | .node x l r _, e =>
    if e > x then r.search e
    else if e < x then l.search e
    else .ok x

/-- `_inorder`: left subtree, root, right subtree. -/
def inorder : Node α → List α
  | .empty => []
  | .node x l r _ => l.inorder ++ x :: r.inorder

/-- `_preorder`: root, left subtree, right subtree. -/
def preorder : Node α → List α
  | .empty => []
  | .node x l r _ => x :: (l.preorder ++ r.preorder)

/-- `_postorder`: left subtree, right subtree, root. -/
def postorder : Node α → List α
  | .empty => []
  | .node x l r _ => l.postorder ++ r.postorder ++ [x]

/-- Termination measure for the breadth-first queue loop. -/
def qweight : Node α → Nat
  | .empty => 1
  | .node _ l r _ => 1 + l.qweight + r.qweight

/-- The `while q:` loop of `_bfs`: pop, skip falsy positions, yield the entry
and push both children. -/
def bfsAux : List (Node α) → List α
  | [] => []
  | .empty :: q => bfsAux q
  | .node x l r _ :: q => x :: bfsAux (q ++ [l, r])
termination_by q => (q.map qweight).sum
decreasing_by
  · simp only [List.map_cons, List.sum_cons, qweight]
    omega
  · simp only [List.map_cons, List.sum_cons, List.map_append, List.sum_append,
      List.map_nil, List.sum_nil, qweight]
    omega

/-- `_bfs`: start from a truthy root with a one-element queue. -/
def bfs (t : Node α) : List α :=
  if t.toBool then bfsAux [t] else []

/-- `_AVLNode.__eq__` / `_EmptyAVLNode.__eq__`.  The sentinel compares by
`isinstance`; an `_AVLNode` evaluates `self.entry == other.entry and
self.left == other.left and self.right == other.right` with short-circuiting,
so looking up `.entry` on a sentinel raises `AttributeError`. -/
def nodeEq [DecidableEq α] : Node α → Node α → Except PyErr Bool
  | .empty, .empty => .ok true
  | .empty, .node _ _ _ _ => .ok false
  | .node _ _ _ _, .empty => .error .attributeError
  | .node x l r _, .node y l2 r2 _ =>
    if x = y then do
      let bl ← nodeEq l l2
      if bl then nodeEq r r2 else pure false
    else .ok false

end Node

end AVLPy

namespace AVLPy

namespace Node

variable {α : Type}

/-- `AVLTree.min`: `self.root.min()`; on an empty root the attribute lookup
for `min` on `_EmptyAVLNode` raises `AttributeError`. -/
def treeMin : Node α → Except PyErr α
  | .empty => .error .attributeError
  | .node x l _ _ => .ok (minFrom x l)

/-- `AVLTree.max`: `self.root.max()`; on an empty root the attribute lookup
for `max` on `_EmptyAVLNode` raises `AttributeError`. -/
def treeMax : Node α → Except PyErr α
  | .empty => .error .attributeError
  | .node x _ r _ => .ok (maxFrom x r)

/-- `AVLTree.clear`: `self.root = self.root.clear()`. First component: the
raised error, if any; second: the root reference after the call (replaced by
`EMPTY_NODE` on success, left pointing at the partially mutated structure on
failure). -/
def treeClearM (t : Node α) : Option PyErr × Node α :=
  match t.clearM with
  | (none, _) => (none, .empty)
  | (some err, t2) => (some err, t2)

/-- `AVLTree.delete`: `self.root = self.root.delete(entry)`; on an exception
the root keeps referencing the receiver in its post-call state. -/
def treeDeleteM [LinearOrder α] (t : Node α) (e : α) : Option PyErr × Node α :=
  match t.deleteM e with
  | (.ok n, _) => (none, n)
  | (.error err, t2) => (some err, t2)

/-- `AVLTree.pred`: `self.root.pred(EMPTY_NODE, entry)`. -/
def treePred [LinearOrder α] (t : Node α) (e : α) : Except PyErr α :=
  t.pred .empty e

/-- `AVLTree.succ`: `self.root.succ(EMPTY_NODE, entry)`. -/
def treeSucc [LinearOrder α] (t : Node α) (e : α) : Except PyErr α :=
  t.succ .empty e

/-- `AVLTree.traverse(order)`: dispatch on the selector string with in-order
as the fall-through default. -/
def traverse (t : Node α) (order : String) : List α :=
  if order = "preorder" then t.preorder
  else if order = "postorder" then t.postorder
  else if order = "bfs" then t.bfs
  else t.inorder

/-- `AVLTree.__eq__`: `isinstance` guard (both sides are trees here), then
the height and length fast-reject, then the recursive root comparison. -/
def treeEq [DecidableEq α] (t u : Node α) : Except PyErr Bool :=
  if t.height = u.height ∧ t.length = u.length then nodeEq t u
  else .ok false

/-- Bulk construction `AVLTree(seq)`: entries inserted one at a time in
iteration order, starting from the empty root. -/
def fromList [LinearOrder α] (xs : List α) : Node α :=
  xs.foldl insert .empty

/-- Whether `clear()` runs to completion on this position: true exactly for
a leaf, or a node with two truthy children both of which can be cleared.
(Any node with exactly one truthy child recurses into `_EmptyAVLNode.clear`,
which does not exist.) -/
def clearable : Node α → Bool
  | .empty => false
  | .node _ l r _ =>
    (!l.toBool && !r.toBool) || (l.toBool && r.toBool && l.clearable && r.clearable)

/-- The AVL shape invariant, phrased as the spec states it: every filled
position caches `height == 1 + max(left.height, right.height)` and has
balance factor in `{-1, 0, 1}`. -/
def AvlInv : Node α → Prop
  | .empty => True
  | .node _ l r h =>
    h = 1 + max l.height r.height ∧
    ((l.height : Int) - r.height = -1 ∨ (l.height : Int) - r.height = 0 ∨
      (l.height : Int) - r.height = 1) ∧
    l.AvlInv ∧ r.AvlInv

/-- The binary-search-tree order invariant, phrased locally as the spec
states it: everything under `left` is strictly below the entry, everything
under `right` strictly above. -/
def BST [LinearOrder α] : Node α → Prop
  | .empty => True
  | .node x l r _ =>
    (∀ y ∈ l.inorder, y < x) ∧ (∀ y ∈ r.inorder, x < y) ∧ l.BST ∧ r.BST

def decAvlInv : (t : Node α) → Decidable t.AvlInv
  | .empty => .isTrue trivial
  | .node _ l r h =>
    have : Decidable l.AvlInv := decAvlInv l
    have : Decidable r.AvlInv := decAvlInv r
    decidable_of_iff
      (h = 1 + max l.height r.height ∧
        ((l.height : Int) - r.height = -1 ∨ (l.height : Int) - r.height = 0 ∨
          (l.height : Int) - r.height = 1) ∧
        l.AvlInv ∧ r.AvlInv) Iff.rfl

instance : DecidablePred (AvlInv (α := α)) := decAvlInv

def decBST [LinearOrder α] : (t : Node α) → Decidable t.BST
  | .empty => .isTrue trivial
  | .node x l r _ =>
    have : Decidable l.BST := decBST l
    have : Decidable r.BST := decBST r
    decidable_of_iff
      ((∀ y ∈ l.inorder, y < x) ∧ (∀ y ∈ r.inorder, x < y) ∧ l.BST ∧ r.BST)
      Iff.rfl

instance [LinearOrder α] : DecidablePred (BST (α := α)) := decBST

/-- Root states producible by a sequence of public mutating calls each of
which completed without raising: the fresh empty tree, successful inserts
(which never raise on totally ordered entries), and successful deletes.
Bulk construction is a fold of such inserts; a successful `clear()` yields
the empty root. -/
inductive Built [LinearOrder α] : Node α → Prop where
  | empty : Built .empty
  | insert (t : Node α) (e : α) : Built t → Built (t.insert e)
  | delete (t t2 : Node α) (e : α) : Built t → t.delete e = .ok t2 → Built t2

/-- Root states reachable by arbitrary public mutating calls, whether or not
they raise: the post-call root of `delete` and `clear` is included even on
the failure paths. -/
inductive Reached [LinearOrder α] : Node α → Prop where
  | empty : Reached .empty
  | insert (t : Node α) (e : α) : Reached t → Reached (t.insert e)
  | delete (t : Node α) (e : α) : Reached t → Reached (t.treeDeleteM e).2
  | clear (t : Node α) : Reached t → Reached t.treeClearM.2

end Node

/-- Structural equality test for `Except` results, used only to state and
decide concrete facts about fallible operations. -/
instance {eps beta : Type} [DecidableEq eps] [DecidableEq beta] :
    DecidableEq (Except eps beta) := fun a b =>
  match a, b with
  | .ok a, .ok b => decidable_of_iff (a = b) (by simp)
  | .ok _, .error _ => .isFalse (by simp)
  | .error _, .ok _ => .isFalse (by simp)
  | .error e, .error f => decidable_of_iff (e = f) (by simp)


end AVLPy

namespace AVLPy
namespace Node

variable {α : Type}

theorem inorder_updateHeight (t : Node α) : t.updateHeight.inorder = t.inorder := by
  cases t <;> simp [updateHeight, inorder]

theorem inorder_rotateLeft (t : Node α) : t.rotateLeft.inorder = t.inorder := by
  rcases t with _ | ⟨x, l, _ | ⟨rx, rl, rr, rh⟩, h⟩ <;>
    simp [rotateLeft, inorder, List.append_assoc]

theorem inorder_rotateRight (t : Node α) : t.rotateRight.inorder = t.inorder := by
  rcases t with _ | ⟨x, _ | ⟨lx, ll, lr, lh⟩, r, h⟩ <;>
    simp [rotateRight, inorder, List.append_assoc]

theorem inorder_rotateLeftRight (t : Node α) : t.rotateLeftRight.inorder = t.inorder := by
  rcases t with _ | ⟨x, l, r, h⟩
  · rfl
  · rw [rotateLeftRight, inorder_rotateRight]
    simp [inorder, inorder_rotateLeft]

theorem inorder_rotateRightLeft (t : Node α) : t.rotateRightLeft.inorder = t.inorder := by
  rcases t with _ | ⟨x, l, r, h⟩
  · rfl
  · rw [rotateRightLeft, inorder_rotateLeft]
    simp [inorder, inorder_rotateRight]

theorem inorder_balanceIfUnbalanced (t : Node α) :
    t.balanceIfUnbalanced.inorder = t.inorder := by
  rw [balanceIfUnbalanced]
  split_ifs <;>
    simp [inorder_rotateLeft, inorder_rotateRight, inorder_rotateLeftRight,
      inorder_rotateRightLeft]

theorem inorder_balancedTree (t : Node α) : t.balancedTree.inorder = t.inorder := by
  rw [balancedTree, inorder_balanceIfUnbalanced, inorder_updateHeight]

/-- The local BST invariant coincides with strict sortedness of the in-order
entry sequence. -/
theorem bst_iff_sorted [LinearOrder α] (t : Node α) :
    t.BST ↔ t.inorder.Sorted (· < ·) := by
  induction t with
  | empty => simp [BST, inorder, List.Sorted]
  | node x l r h ihl ihr =>
    simp only [BST, inorder, ihl, ihr]
    constructor
    · rintro ⟨hlx, hxr, hl, hr⟩
      refine (List.pairwise_append).2 ⟨hl, (List.pairwise_cons).2 ⟨hxr, hr⟩, ?_⟩
      intro a ha b hb
      rcases List.mem_cons.1 hb with rfl | hb
      · exact hlx a ha
      · exact lt_trans (hlx a ha) (hxr b hb)
    · intro hs
      obtain ⟨hl, hxr, hcross⟩ := (List.pairwise_append).1 hs
      obtain ⟨hxall, hr⟩ := (List.pairwise_cons).1 hxr
      exact ⟨fun y hy => hcross y hy x (List.mem_cons_self _ _), hxall, hl, hr⟩

theorem mem_insert_inorder [LinearOrder α] (t : Node α) (e y : α) :
    y ∈ (t.insert e).inorder ↔ y = e ∨ y ∈ t.inorder := by
  induction t with
  | empty => simp [insert, inorder]
  | node x l r h ihl ihr =>
    rw [insert]
    rcases lt_trichotomy x e with hlt | rfl | hgt
    · rw [if_pos hlt, inorder_balancedTree]
      simp only [inorder, List.mem_append, List.mem_cons, ihr]
      tauto
    · rw [if_neg (lt_irrefl x), if_neg (lt_irrefl x), inorder_balancedTree]
      simp only [inorder, List.mem_append, List.mem_cons]
      constructor
      · tauto
      · rintro (rfl | hy) <;> tauto
    · rw [if_neg (not_lt_of_gt hgt), if_pos hgt, inorder_balancedTree]
      simp only [inorder, List.mem_append, List.mem_cons, ihl]
      tauto

/-- `insert` keeps the in-order sequence strictly sorted. -/
theorem insert_sorted [LinearOrder α] {t : Node α} (e : α)
    (hs : t.inorder.Sorted (· < ·)) : (t.insert e).inorder.Sorted (· < ·) := by
  induction t with
  | empty => simp [insert, inorder, List.Sorted]
  | node x l r h ihl ihr =>
    rw [inorder] at hs
    obtain ⟨hl, hxr, hcross⟩ := (List.pairwise_append).1 hs
    obtain ⟨hxall, hr⟩ := (List.pairwise_cons).1 hxr
    rw [insert]
    rcases lt_trichotomy x e with hlt | rfl | hgt
    · rw [if_pos hlt, inorder_balancedTree]
      refine (List.pairwise_append).2 ⟨hl, (List.pairwise_cons).2 ⟨?_, ihr hr⟩, ?_⟩
      · intro b hb
        rcases (mem_insert_inorder r e b).1 hb with rfl | hb
        · exact hlt
        · exact hxall b hb
      · intro a ha b hb
        rcases List.mem_cons.1 hb with hbx | hb
        · exact hbx ▸ hcross a ha _ (List.mem_cons_self _ _)
        · rcases (mem_insert_inorder r e b).1 hb with hbe | hb
          · exact hbe ▸ lt_trans (hcross a ha _ (List.mem_cons_self _ _)) hlt
          · exact hcross a ha b (List.mem_cons_of_mem _ hb)
    · rw [if_neg (lt_irrefl x), if_neg (lt_irrefl x), inorder_balancedTree]
      exact hs
    · rw [if_neg (not_lt_of_gt hgt), if_pos hgt, inorder_balancedTree]
      refine (List.pairwise_append).2 ⟨ihl hl, hxr, ?_⟩
      intro a ha b hb
      rcases (mem_insert_inorder l e a).1 ha with rfl | ha
      · rcases List.mem_cons.1 hb with rfl | hb
        · exact hgt
        · exact lt_trans hgt (hxall b hb)
      · exact hcross a ha b hb

end Node
end AVLPy


namespace AVLPy
namespace Node

variable {α : Type}

@[simp] theorem height_empty : (Node.empty : Node α).height = 0 := rfl

@[simp] theorem height_node (x : α) (l r : Node α) (h : Nat) :
    (Node.node x l r h).height = h := rfl

@[simp] theorem left_node (x : α) (l r : Node α) (h : Nat) :
    (Node.node x l r h).left = l := rfl

@[simp] theorem right_node (x : α) (l r : Node α) (h : Nat) :
    (Node.node x l r h).right = r := rfl

@[simp] theorem bf_node (x : α) (l r : Node α) (h : Nat) :
    (Node.node x l r h).bf = (l.height : Int) - (r.height : Int) := rfl

theorem avl_node_iff (x : α) (l r : Node α) (h : Nat) :
    (Node.node x l r h).AvlInv ↔
      h = 1 + max l.height r.height ∧
      ((l.height : Int) - r.height = -1 ∨ (l.height : Int) - r.height = 0 ∨
        (l.height : Int) - r.height = 1) ∧
      l.AvlInv ∧ r.AvlInv := Iff.rfl

/-- Under the AVL invariant, a position of height 0 is the sentinel. -/
theorem avl_empty_of_height_zero {t : Node α} (ht : t.AvlInv) (h0 : t.height = 0) :
    t = .empty := by
  rcases t with _ | ⟨x, l, r, h⟩
  · rfl
  · rw [avl_node_iff] at ht
    simp only [height_node] at h0
    omega

/-- Core correctness of `_balanced_tree`: applied to a position whose
children satisfy the AVL invariant and whose heights differ by at most 2,
it restores the invariant; its height lands in `[max, 1 + max]` of the
children's heights; a balanced input is returned unchanged apart from the
height update; and a rotation triggered by a taller child whose own
children have unequal heights brings the height down to exactly that
child's height. -/
theorem balancedTree_spec (x : α) (l r : Node α) (h : Nat)
    (hl : l.AvlInv) (hr : r.AvlInv)
    (hd1 : r.height ≤ l.height + 2) (hd2 : l.height ≤ r.height + 2) :
    (Node.node x l r h).balancedTree.AvlInv ∧
    max l.height r.height ≤ (Node.node x l r h).balancedTree.height ∧
    (Node.node x l r h).balancedTree.height ≤ 1 + max l.height r.height ∧
    (r.height ≤ l.height + 1 → l.height ≤ r.height + 1 →
      (Node.node x l r h).balancedTree = Node.node x l r (1 + max l.height r.height)) ∧
    (r.height = l.height + 2 → r.left.height ≠ r.right.height →
      (Node.node x l r h).balancedTree.height = r.height) ∧
    (l.height = r.height + 2 → l.left.height ≠ l.right.height →
      (Node.node x l r h).balancedTree.height = l.height) := by
  simp only [balancedTree, updateHeight, balanceIfUnbalanced, bf_node, left_node, right_node]
  split_ifs with c1 c2 c3 c4
  · -- left-right double rotation: l leans right
    obtain ⟨c1a, c1b⟩ := c1
    rcases l with _ | ⟨lx, ll, lr, lh2⟩
    · simp only [height_empty] at c1a; omega
    rw [avl_node_iff] at hl
    obtain ⟨hlh, hlbf, hll, hlr⟩ := hl
    simp only [height_node] at c1a hd1 hd2 ⊢
    simp only [bf_node] at c1b
    rcases lr with _ | ⟨lrx, lrl, lrr, lrh⟩
    · simp only [height_empty] at c1b hlh hlbf; omega
    simp only [height_node] at c1b hlh hlbf
    rw [avl_node_iff] at hlr
    obtain ⟨hlrh, hlrbf, hlrl, hlrr⟩ := hlr
    simp only [rotateLeftRight, rotateLeft, rotateRight, height_node, left_node, right_node]
    refine ⟨?_, by omega, by omega, ?_, ?_, ?_⟩
    · rw [avl_node_iff, avl_node_iff, avl_node_iff]
      try simp only [height_node]
      repeat' apply And.intro
      all_goals first | assumption | trivial | omega
    · intro h1 h2; exfalso; omega
    · intro h1 _; exfalso; omega
    · intro _ hne; omega
  · -- right-left double rotation: r leans left
    obtain ⟨c2a, c2b⟩ := c2
    rcases r with _ | ⟨rx, rl, rr, rh2⟩
    · simp only [height_empty] at c2a; omega
    rw [avl_node_iff] at hr
    obtain ⟨hrh, hrbf, hrl, hrr⟩ := hr
    simp only [height_node] at c2a hd1 hd2 ⊢
    simp only [bf_node] at c2b
    rcases rl with _ | ⟨rlx, rll, rlr, rlh⟩
    · simp only [height_empty] at c2b hrh hrbf; omega
    simp only [height_node] at c2b hrh hrbf
    rw [avl_node_iff] at hrl
    obtain ⟨hrlh, hrlbf, hrll, hrlr⟩ := hrl
    simp only [rotateRightLeft, rotateRight, rotateLeft, height_node, left_node, right_node]
    refine ⟨?_, by omega, by omega, ?_, ?_, ?_⟩
    · rw [avl_node_iff, avl_node_iff, avl_node_iff]
      try simp only [height_node]
      repeat' apply And.intro
      all_goals first | assumption | trivial | omega
    · intro h1 h2; exfalso; omega
    · intro _ hne; omega
    · intro h1 _; exfalso; omega
  · -- single left rotation: bf = -2, right child does not lean left
    rcases r with _ | ⟨rx, rl, rr, rh2⟩
    · simp only [height_empty] at c3; omega
    rw [avl_node_iff] at hr
    obtain ⟨hrh, hrbf, hrl, hrr⟩ := hr
    simp only [height_node] at c3 hd1 hd2 ⊢
    have h9 : ¬ ((rl.height : Int) - rr.height = 1) := by
      intro hh
      exact c2 ⟨by simp only [height_node]; omega, by simp only [bf_node]; omega⟩
    simp only [rotateLeft, height_node, left_node, right_node]
    refine ⟨?_, by omega, by omega, ?_, ?_, ?_⟩
    · rw [avl_node_iff, avl_node_iff]
      try simp only [height_node]
      repeat' apply And.intro
      all_goals first | assumption | trivial | omega
    · intro h1 h2; exfalso; omega
    · intro _ hne; omega
    · intro h1 _; exfalso; omega
  · -- single right rotation: bf = 2, left child does not lean right
    rcases l with _ | ⟨lx, ll, lr, lh2⟩
    · simp only [height_empty] at c4; omega
    rw [avl_node_iff] at hl
    obtain ⟨hlh, hlbf, hll, hlr⟩ := hl
    simp only [height_node] at c4 hd1 hd2 ⊢
    have h9 : ¬ ((ll.height : Int) - lr.height = -1) := by
      intro hh
      exact c1 ⟨by simp only [height_node]; omega, by simp only [bf_node]; omega⟩
    simp only [rotateRight, height_node, left_node, right_node]
    refine ⟨?_, by omega, by omega, ?_, ?_, ?_⟩
    · rw [avl_node_iff, avl_node_iff]
      try simp only [height_node]
      repeat' apply And.intro
      all_goals first | assumption | trivial | omega
    · intro h1 h2; exfalso; omega
    · intro h1 _; exfalso; omega
    · intro _ hne; omega
  · -- no rotation: only the height update
    refine ⟨?_, by simp only [height_node]; omega, by simp only [height_node]; omega,
      fun _ _ => rfl, ?_, ?_⟩
    · rw [avl_node_iff]
      exact ⟨rfl, by omega, hl, hr⟩
    · intro h1 _; exfalso; omega
    · intro h1 _; exfalso; omega

end Node
end AVLPy

namespace AVLPy
namespace Node

variable {α : Type}

theorem height_pos_ne_empty {t : Node α} (h1 : 1 ≤ t.height) : t ≠ .empty := by
  intro h0
  rw [h0] at h1
  simp only [height_empty] at h1
  omega

/-- `insert` preserves the AVL invariant; it grows the height by at most one,
and a node whose height grew ends up with children of unequal heights. -/
theorem insert_avl [LinearOrder α] (e : α) : ∀ t : Node α, t.AvlInv →
    (t.insert e).AvlInv ∧
    t.height ≤ (t.insert e).height ∧
    (t.insert e).height ≤ t.height + 1 ∧
    ((t.insert e).height = t.height + 1 → t ≠ .empty →
      (t.insert e).left.height ≠ (t.insert e).right.height) := by
  intro t
  induction t with
  | empty =>
    intro _
    refine ⟨?_, by simp [insert, height_node, height_empty], ?_, ?_⟩
    · rw [insert, avl_node_iff]
      refine ⟨by simp [height_empty], by simp [height_empty], trivial, trivial⟩
    · simp [insert, height_node, height_empty]
    · intro _ hne
      exact absurd rfl hne
  | node x l r h ihl ihr =>
    intro ht
    rw [avl_node_iff] at ht
    obtain ⟨hth, htbf, hl, hr⟩ := ht
    rw [insert]
    rcases lt_trichotomy x e with hlt | rfl | hgt
    · rw [if_pos hlt]
      obtain ⟨ih1, ih2, ih3, ih4⟩ := ihr hr
      obtain ⟨b1, b2, b3, b4, b5, b6⟩ :=
        balancedTree_spec x l (r.insert e) h hl ih1 (by omega) (by omega)
      by_cases hrot : (r.insert e).height = l.height + 2
      · have hrne : r ≠ .empty := height_pos_ne_empty (by omega)
        have hne := ih4 (by omega) hrne
        have hres := b5 (by omega) hne
        refine ⟨b1, by simp only [height_node]; omega, by simp only [height_node]; omega, ?_⟩
        intro h1 _
        simp only [height_node] at h1
        exfalso
        omega
      · have hb4 := b4 (by omega) (by omega)
        rw [hb4] at b1 ⊢
        simp only [height_node, left_node, right_node]
        refine ⟨b1, by omega, by omega, ?_⟩
        intro h1 _
        omega
    · rw [if_neg (lt_irrefl x), if_neg (lt_irrefl x)]
      obtain ⟨b1, b2, b3, b4, b5, b6⟩ :=
        balancedTree_spec x l r h hl hr (by omega) (by omega)
      have hb4 := b4 (by omega) (by omega)
      rw [hb4]
      simp only [height_node, left_node, right_node]
      refine ⟨?_, by omega, by omega, ?_⟩
      · rw [hb4] at b1
        exact b1
      · intro h1 _
        omega
    · rw [if_neg (asymm hgt), if_pos hgt]
      obtain ⟨ih1, ih2, ih3, ih4⟩ := ihl hl
      obtain ⟨b1, b2, b3, b4, b5, b6⟩ :=
        balancedTree_spec x (l.insert e) r h ih1 hr (by omega) (by omega)
      by_cases hrot : (l.insert e).height = r.height + 2
      · have hlne : l ≠ .empty := height_pos_ne_empty (by omega)
        have hne := ih4 (by omega) hlne
        have hres := b6 (by omega) hne
        refine ⟨b1, by simp only [height_node]; omega, by simp only [height_node]; omega, ?_⟩
        intro h1 _
        simp only [height_node] at h1
        exfalso
        omega
      · have hb4 := b4 (by omega) (by omega)
        rw [hb4] at b1 ⊢
        simp only [height_node, left_node, right_node]
        refine ⟨b1, by omega, by omega, ?_⟩
        intro h1 _
        omega

end Node
end AVLPy

namespace AVLPy
namespace Node

variable {α : Type}

theorem except_bind_ok {eps beta gamma : Type} (a : beta) (f : beta → Except eps gamma) :
    (Except.ok a >>= f) = f a := rfl

theorem except_bind_error {eps beta gamma : Type} (err : eps) (f : beta → Except eps gamma) :
    ((Except.error err : Except eps beta) >>= f) = .error err := rfl

theorem except_pure_eq {eps beta : Type} (a : beta) :
    (pure a : Except eps beta) = .ok a := rfl


/-- Unfolding of `delete` in the greater-than branch. -/
theorem delete_gt [LinearOrder α] (x e : α) (l r : Node α) (h : Nat) (hgt : e > x) :
    (Node.node x l r h).delete e = (do
      let r2 ← r.delete e
      pure (Node.node x l r2 h).balancedTree) := by
  rw [delete.eq_def]
  exact if_pos hgt

/-- Unfolding of `delete` in the less-than branch. -/
theorem delete_lt [LinearOrder α] (x e : α) (l r : Node α) (h : Nat) (hlt : e < x) :
    (Node.node x l r h).delete e = (do
      let l2 ← l.delete e
      pure (Node.node x l2 r h).balancedTree) := by
  rw [delete.eq_def]
  exact (if_neg (asymm hlt)).trans (if_pos hlt)

/-- Unfolding of `delete` on an exact match. -/
theorem delete_found [LinearOrder α] (x : α) (l r : Node α) (h : Nat) :
    (Node.node x l r h).delete x =
      (if (Node.node x l r h).isLeaf then pure .empty
       else if l.toBool then
         match l with
         | .empty => pure .empty
         | .node lx ll lr lh => do
            let l2 ← (Node.node lx ll lr lh).delete (maxFrom lx lr)
            pure (Node.node (maxFrom lx lr) l2 r h).balancedTree
       else pure r) := by
  rw [delete.eq_def]
  exact (if_neg (lt_irrefl x)).trans (if_neg (lt_irrefl x))

/-- A successful `delete` preserves the AVL invariant and shrinks the height
by at most one. -/
theorem delete_avl [LinearOrder α] : ∀ t : Node α, t.AvlInv →
    ∀ (e : α) (t2 : Node α), t.delete e = .ok t2 →
      t2.AvlInv ∧ t2.height ≤ t.height ∧ t.height ≤ t2.height + 1 := by
  intro t
  induction t with
  | empty =>
    intro _ e t2 hdel
    exact Except.noConfusion hdel
  | node x l r h ihl ihr =>
    intro ht e t2 hdel
    rw [avl_node_iff] at ht
    obtain ⟨hth, htbf, hl, hr⟩ := ht
    rcases lt_trichotomy x e with hlt | rfl | hgt
    · rw [delete_gt x e l r h hlt] at hdel
      cases hr2 : r.delete e with
      | error err =>
        rw [hr2, except_bind_error] at hdel
        exact Except.noConfusion hdel
      | ok r2 =>
        rw [hr2, except_bind_ok, except_pure_eq] at hdel
        obtain rfl : (Node.node x l r2 h).balancedTree = t2 := Except.ok.inj hdel
        obtain ⟨ih1, ih2, ih3⟩ := ihr hr e r2 hr2
        obtain ⟨b1, b2, b3, b4, b5, b6⟩ :=
          balancedTree_spec x l r2 h hl ih1 (by omega) (by omega)
        by_cases hmax : max l.height r2.height = max l.height r.height
        · exact ⟨b1, by simp only [height_node]; omega, by simp only [height_node]; omega⟩
        · have hb4 := b4 (by omega) (by omega)
          rw [hb4] at b1 ⊢
          simp only [height_node]
          exact ⟨b1, by omega, by omega⟩
    · rw [delete_found x l r h] at hdel
      rcases l with _ | ⟨lx, ll, lr, lh⟩
      · simp only [isLeaf, toBool] at hdel
        rcases r with _ | ⟨rx, rl, rr, rh⟩
        · simp only [Bool.or_false, Bool.not_false, if_true, except_pure_eq] at hdel
          obtain rfl : (Node.empty : Node α) = t2 := Except.ok.inj hdel
          refine ⟨trivial, by simp only [height_empty]; omega, ?_⟩
          simp only [height_empty, height_node] at hth ⊢
          omega
        · simp only [Bool.or_true, Bool.not_true, Bool.false_eq_true, if_false,
            except_pure_eq] at hdel
          obtain rfl : Node.node rx rl rr rh = t2 := Except.ok.inj hdel
          refine ⟨hr, ?_, ?_⟩ <;> simp only [height_node, height_empty] at hth ⊢ <;> omega
      · simp only [isLeaf, toBool, Bool.true_or, Bool.not_true, Bool.false_eq_true,
          if_false, if_true] at hdel
        cases hl2 : (Node.node lx ll lr lh).delete (maxFrom lx lr) with
        | error err =>
          rw [hl2, except_bind_error] at hdel
          exact Except.noConfusion hdel
        | ok l2 =>
          rw [hl2, except_bind_ok, except_pure_eq] at hdel
          obtain rfl : (Node.node (maxFrom lx lr) l2 r h).balancedTree = t2 :=
            Except.ok.inj hdel
          obtain ⟨ih1, ih2, ih3⟩ := ihl hl (maxFrom lx lr) l2 hl2
          simp only [height_node] at ih2 ih3 hth htbf
          obtain ⟨b1, b2, b3, b4, b5, b6⟩ :=
            balancedTree_spec (maxFrom lx lr) l2 r h ih1 hr (by omega) (by omega)
          by_cases hmax : max l2.height r.height = max lh r.height
          · exact ⟨b1, by simp only [height_node]; omega, by simp only [height_node]; omega⟩
          · have hb4 := b4 (by omega) (by omega)
            rw [hb4] at b1 ⊢
            simp only [height_node]
            exact ⟨b1, by omega, by omega⟩
    · rw [delete_lt x e l r h hgt] at hdel
      cases hl2 : l.delete e with
      | error err =>
        rw [hl2, except_bind_error] at hdel
        exact Except.noConfusion hdel
      | ok l2 =>
        rw [hl2, except_bind_ok, except_pure_eq] at hdel
        obtain rfl : (Node.node x l2 r h).balancedTree = t2 := Except.ok.inj hdel
        obtain ⟨ih1, ih2, ih3⟩ := ihl hl e l2 hl2
        obtain ⟨b1, b2, b3, b4, b5, b6⟩ :=
          balancedTree_spec x l2 r h ih1 hr (by omega) (by omega)
        by_cases hmax : max l2.height r.height = max l.height r.height
        · exact ⟨b1, by simp only [height_node]; omega, by simp only [height_node]; omega⟩
        · have hb4 := b4 (by omega) (by omega)
          rw [hb4] at b1 ⊢
          simp only [height_node]
          exact ⟨b1, by omega, by omega⟩

end Node
end AVLPy

namespace AVLPy
namespace Node

variable {α : Type}

theorem sorted_parts [LinearOrder α] {L R : List α} {x : α}
    (hs : (L ++ x :: R).Sorted (· < ·)) :
    L.Sorted (· < ·) ∧ R.Sorted (· < ·) ∧ (∀ y ∈ L, y < x) ∧ (∀ y ∈ R, x < y) ∧
    (∀ a ∈ L, ∀ b ∈ R, a < b) := by
  obtain ⟨h1, h2, h3⟩ := List.pairwise_append.1 hs
  obtain ⟨h4, h5⟩ := List.pairwise_cons.1 h2
  exact ⟨h1, h5, fun y hy => h3 y hy x (List.mem_cons_self _ _), h4,
    fun a ha b hb => h3 a ha b (List.mem_cons_of_mem _ hb)⟩

theorem sorted_build [LinearOrder α] {L R : List α} {x : α}
    (hL : L.Sorted (· < ·)) (hR : R.Sorted (· < ·))
    (hLx : ∀ y ∈ L, y < x) (hxR : ∀ y ∈ R, x < y) :
    (L ++ x :: R).Sorted (· < ·) := by
  refine List.pairwise_append.2 ⟨hL, List.pairwise_cons.2 ⟨hxR, hR⟩, ?_⟩
  intro a ha b hb
  rcases List.mem_cons.1 hb with hbx | hb
  · exact hbx ▸ hLx a ha
  · exact lt_trans (hLx a ha) (hxR b hb)

/-- The iterative `max` loop returns an upper bound of the whole sorted
in-order context it starts from. -/
theorem le_maxFrom [LinearOrder α] : ∀ (r : Node α) (x : α) (L : List α),
    (L ++ x :: r.inorder).Sorted (· < ·) →
    ∀ y ∈ L ++ x :: r.inorder, y ≤ maxFrom x r := by
  intro r
  induction r with
  | empty =>
    intro x L hs y hy
    rw [maxFrom]
    rw [inorder] at hy hs
    obtain ⟨-, -, hLx, -, -⟩ := sorted_parts hs
    rcases List.mem_append.1 hy with hy | hy
    · exact le_of_lt (hLx y hy)
    · rcases List.mem_cons.1 hy with hy | hy
      · exact le_of_eq hy
      · exact absurd hy (List.not_mem_nil y)
  | node z rl rr h ihl ihr =>
    intro x L hs y hy
    rw [maxFrom]
    rw [inorder] at hs hy
    have hre : L ++ x :: (rl.inorder ++ z :: rr.inorder)
        = (L ++ x :: rl.inorder) ++ z :: rr.inorder := by
      simp only [List.cons_append, List.append_assoc]
    rw [hre] at hs hy
    exact ihr z (L ++ x :: rl.inorder) hs y hy

/-- The iterative `max` loop returns the starting entry or an entry of the
subtree walked. -/
theorem maxFrom_mem : ∀ (r : Node α) (x : α), maxFrom x r = x ∨ maxFrom x r ∈ r.inorder := by
  intro r
  induction r with
  | empty => intro x; exact Or.inl rfl
  | node z rl rr h ihl ihr =>
    intro x
    rw [maxFrom, inorder]
    rcases ihr z with h1 | h1
    · refine Or.inr (List.mem_append.2 (Or.inr ?_))
      rw [h1]
      exact List.mem_cons_self _ _
    · exact Or.inr (List.mem_append.2 (Or.inr (List.mem_cons_of_mem _ h1)))

/-- A successful `delete` keeps the in-order sequence strictly sorted, only
removes entries, and removes the requested entry. -/
theorem delete_sorted [LinearOrder α] : ∀ t : Node α, t.inorder.Sorted (· < ·) →
    ∀ (e : α) (t2 : Node α), t.delete e = .ok t2 →
      t2.inorder.Sorted (· < ·) ∧ (∀ y ∈ t2.inorder, y ∈ t.inorder) ∧ e ∉ t2.inorder := by
  intro t
  induction t with
  | empty => intro _ e t2 hdel; exact Except.noConfusion hdel
  | node x l r h ihl ihr =>
    intro hs e t2 hdel
    rw [inorder] at hs
    obtain ⟨hsl, hsr, hlx, hxr, hcross⟩ := sorted_parts hs
    rcases lt_trichotomy x e with hlt | rfl | hgt
    · rw [delete_gt x e l r h hlt] at hdel
      cases hr2 : r.delete e with
      | error err => rw [hr2, except_bind_error] at hdel; exact Except.noConfusion hdel
      | ok r2 =>
        rw [hr2, except_bind_ok, except_pure_eq] at hdel
        obtain rfl := Except.ok.inj hdel
        obtain ⟨ih1, ih2, ih3⟩ := ihr hsr e r2 hr2
        rw [inorder_balancedTree, inorder]
        refine ⟨sorted_build hsl ih1 hlx (fun y hy => hxr y (ih2 y hy)), ?_, ?_⟩
        · intro y hy
          rcases List.mem_append.1 hy with hy | hy
          · exact List.mem_append.2 (Or.inl hy)
          rcases List.mem_cons.1 hy with hy | hy
          · exact List.mem_append.2 (Or.inr (hy ▸ List.mem_cons_self _ _))
          · exact List.mem_append.2 (Or.inr (List.mem_cons_of_mem _ (ih2 y hy)))
        · intro hy
          rcases List.mem_append.1 hy with hy | hy
          · exact lt_asymm hlt (hlx e hy)
          rcases List.mem_cons.1 hy with hy | hy
          · exact absurd hy (ne_of_gt hlt)
          · exact ih3 hy
    · rw [delete_found x l r h] at hdel
      rcases l with _ | ⟨lx, ll, lr, lh⟩
      · simp only [isLeaf, toBool] at hdel
        rcases r with _ | ⟨rx, rl, rr, rh⟩
        · simp only [Bool.or_false, Bool.not_false, if_true, except_pure_eq] at hdel
          obtain rfl := Except.ok.inj hdel
          exact ⟨by simp [inorder], by simp [inorder], by simp [inorder]⟩
        · simp only [Bool.or_true, Bool.not_true, Bool.false_eq_true, if_false,
            except_pure_eq] at hdel
          obtain rfl := Except.ok.inj hdel
          refine ⟨hsr, ?_, ?_⟩
          · intro y hy
            exact List.mem_append.2 (Or.inr (List.mem_cons_of_mem _ hy))
          · intro hy
            exact lt_irrefl x (hxr x hy)
      · simp only [isLeaf, toBool, Bool.true_or, Bool.not_true, Bool.false_eq_true,
          if_false, if_true] at hdel
        cases hl2 : (Node.node lx ll lr lh).delete (maxFrom lx lr) with
        | error err => rw [hl2, except_bind_error] at hdel; exact Except.noConfusion hdel
        | ok l2 =>
          rw [hl2, except_bind_ok, except_pure_eq] at hdel
          obtain rfl := Except.ok.inj hdel
          obtain ⟨ih1, ih2, ih3⟩ := ihl hsl (maxFrom lx lr) l2 hl2
          have hmm : maxFrom lx lr ∈ (Node.node lx ll lr lh).inorder := by
            rw [inorder]
            rcases maxFrom_mem lr lx with h1 | h1
            · refine List.mem_append.2 (Or.inr ?_)
              rw [h1]
              exact List.mem_cons_self _ _
            · exact List.mem_append.2 (Or.inr (List.mem_cons_of_mem _ h1))
          have hub : ∀ y ∈ (Node.node lx ll lr lh).inorder, y ≤ maxFrom lx lr := by
            rw [inorder] at hsl ⊢
            exact le_maxFrom lr lx ll.inorder hsl
          rw [inorder_balancedTree, inorder]
          have hl2lt : ∀ y ∈ l2.inorder, y < maxFrom lx lr := by
            intro y hy
            exact lt_of_le_of_ne (hub y (ih2 y hy)) (fun he => ih3 (he ▸ hy))
          have hmr : ∀ b ∈ r.inorder, maxFrom lx lr < b :=
            fun b hb => lt_trans (hlx _ hmm) (hxr b hb)
          refine ⟨sorted_build ih1 hsr hl2lt hmr, ?_, ?_⟩
          · intro y hy
            rcases List.mem_append.1 hy with hy | hy
            · exact List.mem_append.2 (Or.inl (ih2 y hy))
            rcases List.mem_cons.1 hy with hy | hy
            · exact List.mem_append.2 (Or.inl (hy ▸ hmm))
            · exact List.mem_append.2 (Or.inr (List.mem_cons_of_mem _ hy))
          · intro hy
            rcases List.mem_append.1 hy with hy | hy
            · exact lt_irrefl x (hlx x (ih2 x hy))
            rcases List.mem_cons.1 hy with hy | hy
            · have h1 := hlx _ hmm
              rw [← hy] at h1
              exact lt_irrefl x h1
            · exact lt_irrefl x (hxr x hy)
    · rw [delete_lt x e l r h hgt] at hdel
      cases hl2 : l.delete e with
      | error err => rw [hl2, except_bind_error] at hdel; exact Except.noConfusion hdel
      | ok l2 =>
        rw [hl2, except_bind_ok, except_pure_eq] at hdel
        obtain rfl := Except.ok.inj hdel
        obtain ⟨ih1, ih2, ih3⟩ := ihl hsl e l2 hl2
        rw [inorder_balancedTree, inorder]
        refine ⟨sorted_build ih1 hsr (fun y hy => hlx y (ih2 y hy)) hxr, ?_, ?_⟩
        · intro y hy
          rcases List.mem_append.1 hy with hy | hy
          · exact List.mem_append.2 (Or.inl (ih2 y hy))
          · exact List.mem_append.2 (Or.inr hy)
        · intro hy
          rcases List.mem_append.1 hy with hy | hy
          · exact ih3 hy
          rcases List.mem_cons.1 hy with hy | hy
          · exact absurd hy (ne_of_lt hgt)
          · exact lt_asymm hgt (hxr e hy)

end Node
end AVLPy

namespace AVLPy
namespace Node

variable {α : Type}

/-- Deleting an entry present in a sorted tree succeeds. -/
theorem delete_present [LinearOrder α] : ∀ t : Node α, t.inorder.Sorted (· < ·) →
    ∀ e : α, e ∈ t.inorder → ∃ t2, t.delete e = .ok t2 := by
  intro t
  induction t with
  | empty => intro _ e he; exact absurd he (List.not_mem_nil e)
  | node x l r h ihl ihr =>
    intro hs e he
    rw [inorder] at hs he
    obtain ⟨hsl, hsr, hlx, hxr, -⟩ := sorted_parts hs
    rcases lt_trichotomy x e with hlt | rfl | hgt
    · have her : e ∈ r.inorder := by
        rcases List.mem_append.1 he with he | he
        · exact absurd (hlx e he) (lt_asymm hlt)
        rcases List.mem_cons.1 he with he | he
        · exact absurd he (ne_of_gt hlt)
        · exact he
      obtain ⟨r2, hr2⟩ := ihr hsr e her
      exact ⟨_, by rw [delete_gt x e l r h hlt, hr2, except_bind_ok, except_pure_eq]⟩
    · rw [delete_found x l r h]
      rcases l with _ | ⟨lx, ll, lr, lh⟩
      · rcases r with _ | ⟨rx, rl, rr, rh⟩
        · exact ⟨.empty, by simp only [isLeaf, toBool, Bool.or_false, Bool.not_false, if_true,
            except_pure_eq]⟩
        · exact ⟨.node rx rl rr rh, by simp only [isLeaf, toBool, Bool.or_true, Bool.not_true,
            Bool.false_eq_true, if_false, except_pure_eq]⟩
      · have hmm : maxFrom lx lr ∈ (Node.node lx ll lr lh).inorder := by
          rw [inorder]
          rcases maxFrom_mem lr lx with h1 | h1
          · refine List.mem_append.2 (Or.inr ?_)
            rw [h1]
            exact List.mem_cons_self _ _
          · exact List.mem_append.2 (Or.inr (List.mem_cons_of_mem _ h1))
        obtain ⟨l2, hl2⟩ := ihl hsl (maxFrom lx lr) hmm
        refine ⟨(Node.node (maxFrom lx lr) l2 r h).balancedTree, ?_⟩
        simp only [isLeaf, toBool, Bool.true_or, Bool.not_true, Bool.false_eq_true,
          if_false, if_true]
        rw [hl2, except_bind_ok, except_pure_eq]
    · have hel : e ∈ l.inorder := by
        rcases List.mem_append.1 he with he | he
        · exact he
        rcases List.mem_cons.1 he with he | he
        · exact absurd he (ne_of_lt hgt)
        · exact absurd (hxr e he) (lt_asymm hgt)
      obtain ⟨l2, hl2⟩ := ihl hsl e hel
      exact ⟨_, by rw [delete_lt x e l r h hgt, hl2, except_bind_ok, except_pure_eq]⟩

/-- Unfolding of `deleteM` in the greater-than branch. -/
theorem deleteM_gt [LinearOrder α] (x e : α) (l r : Node α) (h : Nat) (hgt : e > x) :
    (Node.node x l r h).deleteM e =
      (match (r.deleteM e).1 with
       | .error err => (.error err, .node x l (r.deleteM e).2 h)
       | .ok newR => (.ok (Node.node x l newR h).balancedTree, .node x l newR h)) := by
  rw [deleteM.eq_def]
  exact if_pos hgt

/-- Unfolding of `deleteM` in the less-than branch. -/
theorem deleteM_lt [LinearOrder α] (x e : α) (l r : Node α) (h : Nat) (hlt : e < x) :
    (Node.node x l r h).deleteM e =
      (match (l.deleteM e).1 with
       | .error err => (.error err, .node x (l.deleteM e).2 r h)
       | .ok newL => (.ok (Node.node x newL r h).balancedTree, .node x newL r h)) := by
  rw [deleteM.eq_def]
  exact (if_neg (asymm hlt)).trans (if_pos hlt)

/-- Unfolding of `deleteM` on an exact match. -/
theorem deleteM_found [LinearOrder α] (x : α) (l r : Node α) (h : Nat) :
    (Node.node x l r h).deleteM x =
      (if (Node.node x l r h).isLeaf then (.ok .empty, .node x l r h)
       else if l.toBool then
         match l with
         | .empty => (.ok .empty, .node x l r h)
         | .node lx _ lr _ =>
           match (l.deleteM (maxFrom lx lr)).1 with
           | .error err => (.error err, .node (maxFrom lx lr) (l.deleteM (maxFrom lx lr)).2 r h)
           | .ok newL =>
             (.ok (Node.node (maxFrom lx lr) newL r h).balancedTree,
               .node (maxFrom lx lr) newL r h)
       else (.ok r, .node x l r h)) := by
  rw [deleteM.eq_def]
  exact (if_neg (lt_irrefl x)).trans (if_neg (lt_irrefl x))

/-- `deleteM` returns the same result value as the functional `delete`. -/
theorem deleteM_fst [LinearOrder α] : ∀ (t : Node α) (e : α),
    (t.deleteM e).1 = t.delete e := by
  intro t
  induction t with
  | empty => intro e; rfl
  | node x l r h ihl ihr =>
    intro e
    rcases lt_trichotomy x e with hlt | rfl | hgt
    · rw [deleteM_gt x e l r h hlt, delete_gt x e l r h hlt]
      rw [← ihr e]
      cases hr2 : r.deleteM e with
      | mk res st =>
        cases res with
        | error err => rw [except_bind_error]
        | ok r2 => rw [except_bind_ok, except_pure_eq]
    · rw [deleteM_found x l r, delete_found x l r]
      rcases l with _ | ⟨lx, ll, lr, lh⟩
      · simp only [isLeaf, toBool]
        rcases r with _ | ⟨rx, rl, rr, rh⟩ <;> simp [except_pure_eq]
      · simp only [isLeaf, toBool, Bool.true_or, Bool.not_true, Bool.false_eq_true,
          if_false, if_true]
        rw [← ihl (maxFrom lx lr)]
        cases hl2 : (Node.node lx ll lr lh).deleteM (maxFrom lx lr) with
        | mk res st =>
          cases res with
          | error err => rw [except_bind_error]
          | ok l2 => rw [except_bind_ok, except_pure_eq]
    · rw [deleteM_lt x e l r h hgt, delete_lt x e l r h hgt]
      rw [← ihl e]
      cases hl2 : l.deleteM e with
      | mk res st =>
        cases res with
        | error err => rw [except_bind_error]
        | ok l2 => rw [except_bind_ok, except_pure_eq]

end Node
end AVLPy

namespace AVLPy
namespace Node

variable {α : Type}

/-- A failing `deleteM` call leaves the receiver exactly as it was: the only
mutating path that could fail after an earlier mutation (the in-place entry
substitution) never fails, because the maximum of the left subtree is always
present in it. -/
theorem deleteM_atomic [LinearOrder α] : ∀ t : Node α, t.inorder.Sorted (· < ·) →
    ∀ (e : α) (err : PyErr), (t.deleteM e).1 = .error err → (t.deleteM e).2 = t := by
  intro t
  induction t with
  | empty => intro _ e err _; rfl
  | node x l r h ihl ihr =>
    intro hs e err herr
    rw [inorder] at hs
    obtain ⟨hsl, hsr, hlx, hxr, -⟩ := sorted_parts hs
    rcases lt_trichotomy x e with hlt | rfl | hgt
    · rw [deleteM_gt x e l r h hlt] at herr ⊢
      cases hr2 : r.deleteM e with
      | mk res st =>
        rw [hr2] at herr
        cases res with
        | error err2 =>
          have h2 := ihr hsr e err2
          rw [hr2] at h2
          have hst : st = r := h2 rfl
          show Node.node x l st h = Node.node x l r h
          rw [hst]
        | ok r2 =>
          exact Except.noConfusion
            (show (Except.ok (Node.node x l r2 h).balancedTree : Except PyErr (Node α))
              = .error err from herr)
    · rw [deleteM_found x l r h] at herr ⊢
      rcases l with _ | ⟨lx, ll, lr, lh⟩
      · simp only [isLeaf, toBool] at herr ⊢
        rcases r with _ | ⟨rx, rl, rr, rh⟩
        · simp only [Bool.or_false, Bool.not_false, if_true] at herr
          exact Except.noConfusion herr
        · simp only [Bool.or_true, Bool.not_true, Bool.false_eq_true, if_false] at herr
          exact Except.noConfusion herr
      · simp only [isLeaf, toBool, Bool.true_or, Bool.not_true, Bool.false_eq_true,
          if_false, if_true] at herr ⊢
        have hmm : maxFrom lx lr ∈ (Node.node lx ll lr lh).inorder := by
          rw [inorder]
          rcases maxFrom_mem lr lx with h1 | h1
          · refine List.mem_append.2 (Or.inr ?_)
            rw [h1]
            exact List.mem_cons_self _ _
          · exact List.mem_append.2 (Or.inr (List.mem_cons_of_mem _ h1))
        obtain ⟨l2, hl2⟩ := delete_present (Node.node lx ll lr lh) hsl (maxFrom lx lr) hmm
        have hfst : ((Node.node lx ll lr lh).deleteM (maxFrom lx lr)).1 = .ok l2 := by
          rw [deleteM_fst]
          exact hl2
        rw [hfst] at herr
        exact Except.noConfusion
          (show (Except.ok (Node.node (maxFrom lx lr) l2 r h).balancedTree
              : Except PyErr (Node α)) = .error err from herr)
    · rw [deleteM_lt x e l r h hgt] at herr ⊢
      cases hl2 : l.deleteM e with
      | mk res st =>
        rw [hl2] at herr
        cases res with
        | error err2 =>
          have h2 := ihl hsl e err2
          rw [hl2] at h2
          have hst : st = l := h2 rfl
          show Node.node x st r h = Node.node x l r h
          rw [hst]
        | ok l2 =>
          exact Except.noConfusion
            (show (Except.ok (Node.node x l2 r h).balancedTree : Except PyErr (Node α))
              = .error err from herr)

/-- One-step unfolding of `clearM` on a filled position. -/
theorem clearM_node (x : α) (l r : Node α) (h : Nat) :
    (Node.node x l r h).clearM =
      (if (Node.node x l r h).isLeaf then (none, Node.node x l r h)
       else match l.clearM.1 with
       | some err => (some err, Node.node x l.clearM.2 r h)
       | none =>
         match r.clearM.1 with
         | some err => (some err, Node.node x .empty r.clearM.2 h)
         | none => (none, Node.node x .empty .empty h)) := by
  rw [clearM.eq_def]

/-- `clearM` succeeds exactly on clearable positions, and any failure is the
`AttributeError` from looking up `clear` on the sentinel. -/
@[simp] theorem toBool_empty : (Node.empty : Node α).toBool = false := rfl

@[simp] theorem toBool_node (x : α) (l r : Node α) (h : Nat) :
    (Node.node x l r h).toBool = true := rfl

theorem isLeaf_node (x : α) (l r : Node α) (h : Nat) :
    (Node.node x l r h).isLeaf = !(l.toBool || r.toBool) := rfl

theorem clearable_node (x : α) (l r : Node α) (h : Nat) :
    (Node.node x l r h).clearable =
      ((!l.toBool && !r.toBool) || (l.toBool && r.toBool && l.clearable && r.clearable)) :=
  rfl

theorem clearM_fst : ∀ t : Node α,
    t.clearM.1 = if t.clearable then none else some .attributeError := by
  intro t
  induction t with
  | empty => rfl
  | node x l r h ihl ihr =>
    rw [clearM_node, clearable_node]
    rcases l with _ | ⟨lx, ll, lr, lh⟩
    · rcases r with _ | ⟨rx, rl, rr, rh⟩
      · simp [isLeaf_node]
      · simp [isLeaf_node, clearM]
    · rcases r with _ | ⟨rx, rl, rr, rh⟩
      · rw [ihl]
        by_cases hc : (Node.node lx ll lr lh).clearable = true
        · rw [if_pos hc]
          simp [isLeaf_node, clearM]
        · rw [if_neg hc]
          simp [isLeaf_node]
      · rw [ihl]
        by_cases hc : (Node.node lx ll lr lh).clearable = true
        · rw [if_pos hc, ihr]
          by_cases hc2 : (Node.node rx rl rr rh).clearable = true
          · rw [if_pos hc2]
            simp [isLeaf_node, hc, hc2]
          · rw [if_neg hc2]
            simp [isLeaf_node, hc, hc2]
        · rw [if_neg hc]
          simp [isLeaf_node, hc]

end Node
end AVLPy

namespace AVLPy
namespace Node

variable {α : Type}

/-- The receiver state after any `clearM` call lists a subsequence of the
original entries in order (cleared subtrees are dropped, nothing else moves). -/
theorem clearM_snd_sublist : ∀ t : Node α, t.clearM.2.inorder.Sublist t.inorder := by
  intro t
  induction t with
  | empty => exact List.Sublist.refl _
  | node x l r h ihl ihr =>
    rw [clearM_node]
    by_cases hleaf : (Node.node x l r h).isLeaf = true
    · rw [if_pos hleaf]
    · rw [if_neg hleaf]
      cases hp : l.clearM.1 with
      | some err =>
        show (Node.node x l.clearM.2 r h).inorder.Sublist (Node.node x l r h).inorder
        rw [inorder, inorder]
        exact List.Sublist.append ihl (List.Sublist.refl _)
      | none =>
        cases hq : r.clearM.1 with
        | some err =>
          show (Node.node x .empty r.clearM.2 h).inorder.Sublist (Node.node x l r h).inorder
          rw [inorder, inorder, inorder]
          exact List.Sublist.trans
            (by exact List.Sublist.cons₂ x ihr)
            (List.sublist_append_right l.inorder (x :: r.inorder))
        | none =>
          show (Node.node x .empty .empty h).inorder.Sublist (Node.node x l r h).inorder
          rw [inorder, inorder, inorder]
          exact List.Sublist.trans
            (by exact List.Sublist.cons₂ x (List.nil_sublist _))
            (List.sublist_append_right l.inorder (x :: r.inorder))

/-- `AVLTree.delete` after a successful node-level delete. -/
theorem treeDeleteM_of_ok [LinearOrder α] {t t2 : Node α} {e : α}
    (hdel : t.delete e = .ok t2) : t.treeDeleteM e = (none, t2) := by
  have h1 : (t.deleteM e).1 = .ok t2 := by rw [deleteM_fst]; exact hdel
  simp only [treeDeleteM]
  cases hp : t.deleteM e with
  | mk res st =>
    rw [hp] at h1
    have h2 : res = .ok t2 := h1
    rw [h2]

/-- `AVLTree.clear` resolved by clearability: success resets the root to the
sentinel, failure raises `AttributeError` and leaves the root pointing at the
partially cleared receiver. -/
theorem treeClearM_eq : ∀ t : Node α,
    t.treeClearM = if t.clearable then (none, Node.empty) else (some .attributeError, t.clearM.2) := by
  intro t
  have h1 := clearM_fst t
  simp only [treeClearM]
  cases hp : t.clearM with
  | mk c1 c2 =>
    rw [hp] at h1
    by_cases hc : t.clearable = true
    · rw [if_pos hc] at h1 ⊢
      have h2 : c1 = none := h1
      rw [h2]
    · rw [if_neg hc] at h1 ⊢
      have h2 : c1 = some .attributeError := h1
      rw [h2]

/-- Every tree built by successful public mutating calls satisfies the AVL
invariant and has a strictly sorted in-order sequence. -/
theorem built_avl_sorted [LinearOrder α] {t : Node α} (hb : Built t) :
    t.AvlInv ∧ t.inorder.Sorted (· < ·) := by
  induction hb with
  | empty => exact ⟨trivial, List.sorted_nil⟩
  | insert t e hb ih => exact ⟨(insert_avl e t ih.1).1, insert_sorted e ih.2⟩
  | delete t t2 e hb hdel ih =>
    exact ⟨(delete_avl t ih.1 e t2 hdel).1, (delete_sorted t ih.2 e t2 hdel).1⟩

/-- Every tree reachable by public mutating calls, raising or not, keeps a
strictly sorted in-order sequence. -/
theorem reached_sorted [LinearOrder α] {t : Node α} (hr : Reached t) :
    t.inorder.Sorted (· < ·) := by
  induction hr with
  | empty => exact List.sorted_nil
  | insert t e hb ih => exact insert_sorted e ih
  | delete t e hb ih =>
    simp only [treeDeleteM]
    cases hp : t.deleteM e with
    | mk res st =>
      cases res with
      | ok n =>
        have hok : t.delete e = .ok n := by
          rw [← deleteM_fst, hp]
        exact (delete_sorted t ih e n hok).1
      | error err =>
        have h2 := deleteM_atomic t ih e err (by rw [hp])
        rw [hp] at h2
        have hst : st = t := h2
        show (st.inorder).Sorted (· < ·)
        rw [hst]
        exact ih
  | clear t hb ih =>
    simp only [treeClearM]
    cases hp : t.clearM with
    | mk c1 c2 =>
      cases c1 with
      | none => exact List.sorted_nil
      | some err =>
        have hsub := clearM_snd_sublist t
        rw [hp] at hsub
        exact List.Pairwise.sublist hsub ih

/-- Built trees are reachable. -/
theorem built_reached [LinearOrder α] {t : Node α} (hb : Built t) : Reached t := by
  induction hb with
  | empty => exact Reached.empty
  | insert t e hb ih => exact Reached.insert t e ih
  | delete t t2 e hb hdel ih =>
    have h2 := Reached.delete t e ih
    rw [treeDeleteM_of_ok hdel] at h2
    exact h2

/-- Bulk construction yields built trees. -/
theorem built_fromList [LinearOrder α] (xs : List α) : Built (fromList xs) := by
  rw [fromList]
  suffices h : ∀ (ys : List α) (t : Node α), Built t → Built (ys.foldl insert t) by
    exact h xs .empty Built.empty
  intro ys
  induction ys with
  | nil => intro t ht; exact ht
  | cons y ys ih => intro t ht; exact ih (t.insert y) (Built.insert t y ht)

end Node
end AVLPy

namespace AVLPy
namespace Node

variable {α : Type}

/-- Inserting an entry already present into an AVL/BST tree returns the very
same tree: the search path is rebuilt unchanged, each height update recomputes
the cached value, and no balance factor leaves `{-1, 0, 1}`. -/
theorem insert_id [LinearOrder α] : ∀ t : Node α, t.AvlInv → t.inorder.Sorted (· < ·) →
    ∀ e ∈ t.inorder, t.insert e = t := by
  intro t
  induction t with
  | empty => intro _ _ e he; exact absurd he (List.not_mem_nil e)
  | node x l r h ihl ihr =>
    intro ha hs e he
    rw [avl_node_iff] at ha
    obtain ⟨hth, htbf, hal, har⟩ := ha
    rw [inorder] at hs he
    obtain ⟨hsl, hsr, hlx, hxr, -⟩ := sorted_parts hs
    obtain ⟨b1, b2, b3, b4, b5, b6⟩ :=
      balancedTree_spec x l r h hal har (by omega) (by omega)
    have hb4 := b4 (by omega) (by omega)
    rw [insert]
    rcases lt_trichotomy x e with hlt | rfl | hgt
    · have her : e ∈ r.inorder := by
        rcases List.mem_append.1 he with he | he
        · exact absurd (hlx e he) (lt_asymm hlt)
        rcases List.mem_cons.1 he with he | he
        · exact absurd he (ne_of_gt hlt)
        · exact he
      rw [if_pos hlt, ihr har hsr e her, hb4, ← hth]
    · rw [if_neg (lt_irrefl x), if_neg (lt_irrefl x), hb4, ← hth]
    · have hel : e ∈ l.inorder := by
        rcases List.mem_append.1 he with he | he
        · exact he
        rcases List.mem_cons.1 he with he | he
        · exact absurd he (ne_of_lt hgt)
        · exact absurd (hxr e he) (lt_asymm hgt)
      rw [if_neg (asymm hgt), if_pos hgt, ihl hal hsl e hel, hb4, ← hth]

/-- The entry carried by a position, when filled. -/
def entryOpt : Node α → Option α
  | .empty => none
  | .node x _ _ _ => some x

@[simp] theorem entryOpt_empty : (Node.empty : Node α).entryOpt = none := rfl

@[simp] theorem entryOpt_node (x : α) (l r : Node α) (h : Nat) :
    (Node.node x l r h).entryOpt = some x := rfl

/-- Unfolding of `pred` in the greater-than branch. -/
theorem pred_gt [LinearOrder α] (x e : α) (l r c : Node α) (h : Nat) (hgt : e > x) :
    (Node.node x l r h).pred c e = r.pred (Node.node x l r h) e := by
  rw [pred.eq_def]
  exact if_pos hgt

/-- Unfolding of `pred` in the less-than branch. -/
theorem pred_lt [LinearOrder α] (x e : α) (l r c : Node α) (h : Nat) (hlt : e < x) :
    (Node.node x l r h).pred c e = l.pred c e := by
  rw [pred.eq_def]
  exact (if_neg (asymm hlt)).trans (if_pos hlt)

/-- Unfolding of `pred` on an exact match. -/
theorem pred_found [LinearOrder α] (x : α) (l r c : Node α) (h : Nat) :
    (Node.node x l r h).pred c x =
      (if l.toBool then
        match l with
        | .empty => .error .keyError
        | .node lx _ lr _ => .ok (maxFrom lx lr)
      else
        match c with
        | .node cx _ _ _ => .ok cx
        | .empty => .error .keyError) := by
  rw [pred.eq_def]
  exact (if_neg (lt_irrefl x)).trans (if_neg (lt_irrefl x))

/-- Unfolding of `succ` in the greater-than branch. -/
theorem succ_gt [LinearOrder α] (x e : α) (l r c : Node α) (h : Nat) (hgt : e > x) :
    (Node.node x l r h).succ c e = r.succ c e := by
  rw [succ.eq_def]
  exact if_pos hgt

/-- Unfolding of `succ` in the less-than branch. -/
theorem succ_lt [LinearOrder α] (x e : α) (l r c : Node α) (h : Nat) (hlt : e < x) :
    (Node.node x l r h).succ c e = l.succ (Node.node x l r h) e := by
  rw [succ.eq_def]
  exact (if_neg (asymm hlt)).trans (if_pos hlt)

/-- Unfolding of `succ` on an exact match. -/
theorem succ_found [LinearOrder α] (x : α) (l r c : Node α) (h : Nat) :
    (Node.node x l r h).succ c x =
      (if r.toBool then
        match r with
        | .empty => .error .keyError
        | .node rx rl _ _ => .ok (minFrom rx rl)
      else
        match c with
        | .node cx _ _ _ => .ok cx
        | .empty => .error .keyError) := by
  rw [succ.eq_def]
  exact (if_neg (lt_irrefl x)).trans (if_neg (lt_irrefl x))

end Node
end AVLPy

namespace AVLPy
namespace Node

variable {α : Type}

/-- The `max` loop computes the last entry of the in-order sequence it scans. -/
theorem maxFrom_getLast? : ∀ (r : Node α) (x : α),
    (x :: r.inorder).getLast? = some (maxFrom x r) := by
  intro r
  induction r with
  | empty => intro x; rfl
  | node z rl rr h ihl ihr =>
    intro x
    rw [maxFrom, inorder, ← ihr z]
    rw [show x :: (rl.inorder ++ z :: rr.inorder)
      = (x :: rl.inorder) ++ z :: rr.inorder by simp]
    exact List.getLast?_append_cons (x :: rl.inorder) z rr.inorder

theorem head?_append_cons_irrel (L : List α) (z : α) (M N : List α) :
    (L ++ z :: M).head? = (L ++ z :: N).head? := by
  cases L <;> rfl

/-- The `min` loop computes the first entry of the in-order sequence it scans. -/
theorem minFrom_head? : ∀ (l : Node α) (x : α),
    (l.inorder ++ [x]).head? = some (minFrom x l) := by
  intro l
  induction l with
  | empty => intro x; rfl
  | node z ll lr h ihl ihr =>
    intro x
    rw [minFrom, inorder, ← ihl z]
    rw [List.append_assoc]
    exact head?_append_cons_irrel ll.inorder z (lr.inorder ++ [x]) []

/-- `ok` on a present optional value, a fallback otherwise (used to phrase
the threaded-candidate semantics of `pred`/`succ`). -/
def okOr (fallback : Except PyErr α) : Option α → Except PyErr α
  | some p => .ok p
  | none => fallback

@[simp] theorem okOr_some (fallback : Except PyErr α) (p : α) :
    okOr fallback (some p) = .ok p := rfl

@[simp] theorem okOr_none (fallback : Except PyErr α) :
    okOr fallback none = fallback := rfl

/-- Semantic result of `pred(candidate, e)`: the last entry below `e` in the
in-order sequence, falling back to the candidate's entry, failing otherwise;
not-found when `e` is absent. -/
def predSpec [LinearOrder α] (t : Node α) (copt : Option α) (e : α) : Except PyErr α :=
  if e ∈ t.inorder then
    okOr (okOr (.error .keyError) copt) (t.inorder.filter (fun y => decide (y < e))).getLast?
  else .error .keyError

/-- Semantic result of `succ(candidate, e)`: the first entry above `e`,
falling back to the candidate's entry. -/
def succSpec [LinearOrder α] (t : Node α) (copt : Option α) (e : α) : Except PyErr α :=
  if e ∈ t.inorder then
    okOr (okOr (.error .keyError) copt) (t.inorder.filter (fun y => decide (e < y))).head?
  else .error .keyError

theorem pred_spec [LinearOrder α] : ∀ (t c : Node α) (e : α),
    t.inorder.Sorted (· < ·) →
    (∀ cx, c.entryOpt = some cx → ∀ y ∈ t.inorder, cx < y) →
    t.pred c e = predSpec t c.entryOpt e := by
  intro t
  induction t with
  | empty =>
    intro c e _ _
    have h1 : (Node.empty : Node α).pred c e = .error .keyError := rfl
    rw [h1]
    simp [predSpec, inorder]
  | node x l r h ihl ihr =>
    intro c e hs hc
    rw [inorder] at hs
    obtain ⟨hsl, hsr, hlx, hxr, hcross⟩ := sorted_parts hs
    rcases lt_trichotomy x e with hlt | rfl | hgt
    · -- descend right, threading self as the new candidate
      rw [pred_gt x e l r c h hlt]
      rw [ihr (Node.node x l r h) e hsr ?hcnew]
      case hcnew =>
        intro cx hcx y hy
        rw [entryOpt_node] at hcx
        obtain rfl := Option.some.inj hcx
        exact hxr y hy
      rw [entryOpt_node]
      have hmem : e ∈ (Node.node x l r h).inorder ↔ e ∈ r.inorder := by
        rw [inorder]
        constructor
        · intro he
          rcases List.mem_append.1 he with he | he
          · exact absurd (hlx e he) (lt_asymm hlt)
          rcases List.mem_cons.1 he with he | he
          · exact absurd he (ne_of_gt hlt)
          · exact he
        · intro he
          exact List.mem_append.2 (Or.inr (List.mem_cons_of_mem _ he))
      have hfil : (Node.node x l r h).inorder.filter (fun y => decide (y < e))
          = l.inorder ++ x :: (r.inorder.filter (fun y => decide (y < e))) := by
        rw [inorder, List.filter_append, List.filter_cons]
        rw [if_pos (by simp only [decide_eq_true_eq]; exact hlt)]
        rw [List.filter_eq_self.2 (fun a ha => by
          simp only [decide_eq_true_eq]
          exact lt_trans (hlx a ha) hlt)]
      rw [predSpec, predSpec, hfil, List.getLast?_append_cons l.inorder x _]
      by_cases hin : e ∈ r.inorder
      · rw [if_pos hin, if_pos (hmem.2 hin)]
        cases hF : (r.inorder.filter (fun y => decide (y < e))).getLast? with
        | some p =>
          have hFne : r.inorder.filter (fun y => decide (y < e)) ≠ [] := by
            intro h0
            rw [h0] at hF
            exact Option.noConfusion hF
          rw [← List.singleton_append, List.getLast?_append_of_ne_nil [x] hFne, hF,
            okOr_some, okOr_some]
        | none =>
          have hFnil : r.inorder.filter (fun y => decide (y < e)) = [] :=
            List.getLast?_eq_none_iff.1 hF
          rw [hFnil]
          rfl
      · rw [if_neg hin, if_neg (fun h2 => hin (hmem.1 h2))]
    · -- exact match
      rw [pred_found x l r c h]
      have hxin : x ∈ (Node.node x l r h).inorder := by
        rw [inorder]
        exact List.mem_append.2 (Or.inr (List.mem_cons_self _ _))
      have hfil : (Node.node x l r h).inorder.filter (fun y => decide (y < x))
          = l.inorder := by
        rw [inorder, List.filter_append, List.filter_cons]
        rw [if_neg (by simp only [decide_eq_true_eq]; exact lt_irrefl x)]
        rw [List.filter_eq_self.2 (fun a ha => by
          simp only [decide_eq_true_eq]
          exact hlx a ha)]
        rw [List.filter_eq_nil.2 (fun a ha => by
          simp only [decide_eq_true_eq, not_lt]
          exact le_of_lt (hxr a ha)), List.append_nil]
      rw [predSpec, if_pos hxin, hfil]
      rcases l with _ | ⟨lx, ll, lr, lh⟩
      · rw [inorder]
        simp only [toBool_empty, Bool.false_eq_true, if_false]
        cases c with
        | empty => rfl
        | node cx cl cr ch => rfl
      · simp only [toBool_node, if_true]
        rw [inorder, List.getLast?_append_cons ll.inorder lx lr.inorder,
          maxFrom_getLast? lr lx, okOr_some]
    · -- descend left, keeping the candidate
      rw [pred_lt x e l r c h hgt]
      rw [ihl c e hsl (fun cx hcx y hy => hc cx hcx y (by
        rw [inorder]
        exact List.mem_append.2 (Or.inl hy)))]
      have hmem : e ∈ (Node.node x l r h).inorder ↔ e ∈ l.inorder := by
        rw [inorder]
        constructor
        · intro he
          rcases List.mem_append.1 he with he | he
          · exact he
          rcases List.mem_cons.1 he with he | he
          · exact absurd he (ne_of_lt hgt)
          · exact absurd (hxr e he) (lt_asymm hgt)
        · intro he
          exact List.mem_append.2 (Or.inl he)
      have hfil : (Node.node x l r h).inorder.filter (fun y => decide (y < e))
          = l.inorder.filter (fun y => decide (y < e)) := by
        rw [inorder, List.filter_append, List.filter_cons]
        rw [if_neg (by simp only [decide_eq_true_eq]; exact not_lt_of_gt hgt)]
        rw [show List.filter (fun y => decide (y < e)) r.inorder = [] from
          List.filter_eq_nil.2 (fun a ha => by
            simp only [decide_eq_true_eq, not_lt]
            exact le_of_lt (lt_trans hgt (hxr a ha))), List.append_nil]
      rw [predSpec, predSpec, hfil]
      by_cases hin : e ∈ l.inorder
      · rw [if_pos hin, if_pos (hmem.2 hin)]
      · rw [if_neg hin, if_neg (fun h2 => hin (hmem.1 h2))]

end Node
end AVLPy

namespace AVLPy
namespace Node

variable {α : Type}

theorem succ_spec [LinearOrder α] : ∀ (t c : Node α) (e : α),
    t.inorder.Sorted (· < ·) →
    (∀ cx, c.entryOpt = some cx → ∀ y ∈ t.inorder, y < cx) →
    t.succ c e = succSpec t c.entryOpt e := by
  intro t
  induction t with
  | empty =>
    intro c e _ _
    have h1 : (Node.empty : Node α).succ c e = .error .keyError := rfl
    rw [h1]
    simp [succSpec, inorder]
  | node x l r h ihl ihr =>
    intro c e hs hc
    rw [inorder] at hs
    obtain ⟨hsl, hsr, hlx, hxr, hcross⟩ := sorted_parts hs
    rcases lt_trichotomy x e with hlt | rfl | hgt
    · -- descend right, keeping the candidate
      rw [succ_gt x e l r c h hlt]
      rw [ihr c e hsr (fun cx hcx y hy => hc cx hcx y (by
        rw [inorder]
        exact List.mem_append.2 (Or.inr (List.mem_cons_of_mem _ hy))))]
      have hmem : e ∈ (Node.node x l r h).inorder ↔ e ∈ r.inorder := by
        rw [inorder]
        constructor
        · intro he
          rcases List.mem_append.1 he with he | he
          · exact absurd (hlx e he) (lt_asymm hlt)
          rcases List.mem_cons.1 he with he | he
          · exact absurd he (ne_of_gt hlt)
          · exact he
        · intro he
          exact List.mem_append.2 (Or.inr (List.mem_cons_of_mem _ he))
      have hfil : (Node.node x l r h).inorder.filter (fun y => decide (e < y))
          = r.inorder.filter (fun y => decide (e < y)) := by
        rw [inorder, List.filter_append, List.filter_cons]
        rw [if_neg (by simp only [decide_eq_true_eq]; exact not_lt_of_gt hlt)]
        rw [show List.filter (fun y => decide (e < y)) l.inorder = [] from
          List.filter_eq_nil.2 (fun a ha => by
            simp only [decide_eq_true_eq, not_lt]
            exact le_of_lt (lt_trans (hlx a ha) hlt)), List.nil_append]
      rw [succSpec, succSpec, hfil]
      by_cases hin : e ∈ r.inorder
      · rw [if_pos hin, if_pos (hmem.2 hin)]
      · rw [if_neg hin, if_neg (fun h2 => hin (hmem.1 h2))]
    · -- exact match
      rw [succ_found x l r c h]
      have hxin : x ∈ (Node.node x l r h).inorder := by
        rw [inorder]
        exact List.mem_append.2 (Or.inr (List.mem_cons_self _ _))
      have hfil : (Node.node x l r h).inorder.filter (fun y => decide (x < y))
          = r.inorder := by
        rw [inorder, List.filter_append, List.filter_cons]
        rw [if_neg (by simp only [decide_eq_true_eq]; exact lt_irrefl x)]
        rw [show List.filter (fun y => decide (x < y)) l.inorder = [] from
          List.filter_eq_nil.2 (fun a ha => by
            simp only [decide_eq_true_eq, not_lt]
            exact le_of_lt (hlx a ha))]
        rw [List.filter_eq_self.2 (fun a ha => by
          simp only [decide_eq_true_eq]
          exact hxr a ha), List.nil_append]
      rw [succSpec, if_pos hxin, hfil]
      rcases r with _ | ⟨rx, rl, rr, rh⟩
      · rw [inorder]
        simp only [toBool_empty, Bool.false_eq_true, if_false]
        cases c with
        | empty => rfl
        | node cx cl cr ch => rfl
      · simp only [toBool_node, if_true]
        rw [inorder, head?_append_cons_irrel rl.inorder rx rr.inorder [],
          minFrom_head? rl rx, okOr_some]
    · -- descend left, threading self as the new candidate
      rw [succ_lt x e l r c h hgt]
      rw [ihl (Node.node x l r h) e hsl ?hcnew]
      case hcnew =>
        intro cx hcx y hy
        rw [entryOpt_node] at hcx
        obtain rfl := Option.some.inj hcx
        exact hlx y hy
      rw [entryOpt_node]
      have hmem : e ∈ (Node.node x l r h).inorder ↔ e ∈ l.inorder := by
        rw [inorder]
        constructor
        · intro he
          rcases List.mem_append.1 he with he | he
          · exact he
          rcases List.mem_cons.1 he with he | he
          · exact absurd he (ne_of_lt hgt)
          · exact absurd (hxr e he) (lt_asymm hgt)
        · intro he
          exact List.mem_append.2 (Or.inl he)
      have hfil : (Node.node x l r h).inorder.filter (fun y => decide (e < y))
          = l.inorder.filter (fun y => decide (e < y)) ++ x :: r.inorder := by
        rw [inorder, List.filter_append, List.filter_cons]
        rw [if_pos (by simp only [decide_eq_true_eq]; exact hgt)]
        rw [show List.filter (fun y => decide (e < y)) r.inorder = r.inorder from
          List.filter_eq_self.2 (fun a ha => by
            simp only [decide_eq_true_eq]
            exact lt_trans hgt (hxr a ha))]
      rw [succSpec, succSpec, hfil]
      by_cases hin : e ∈ l.inorder
      · rw [if_pos hin, if_pos (hmem.2 hin)]
        cases hF : (l.inorder.filter (fun y => decide (e < y))).head? with
        | some p =>
          have hFne : l.inorder.filter (fun y => decide (e < y)) ≠ [] := by
            intro h0
            rw [h0] at hF
            exact Option.noConfusion hF
          rw [List.head?_append_of_ne_nil _ hFne, hF, okOr_some, okOr_some]
        | none =>
          have hFnil : l.inorder.filter (fun y => decide (e < y)) = [] := by
            cases hF2 : l.inorder.filter (fun y => decide (e < y)) with
            | nil => rfl
            | cons a as =>
              rw [hF2] at hF
              exact Option.noConfusion hF
          rw [hFnil]
          rfl
      · rw [if_neg hin, if_neg (fun h2 => hin (hmem.1 h2))]

end Node
end AVLPy

namespace AVLPy
namespace Node

variable {α : Type}

/-- Modelled from the spec's wording of structural equality, for comparison
with the source `__eq__`: both positions Empty, or both Filled with equal
entries and recursively equal left and right subtrees. -/
def specEq : Node α → Node α → Prop
  | .empty, .empty => True
  | .node x l r _, .node y l2 r2 _ => x = y ∧ specEq l l2 ∧ specEq r r2
  | _, _ => False

/-- Whenever the source comparison answers `True`, the compared positions are
structurally equal in the spec's sense, and conversely. -/
theorem nodeEq_ok_iff [DecidableEq α] : ∀ t u : Node α, nodeEq t u = .ok true ↔ specEq t u := by
  intro t
  induction t with
  | empty =>
    intro u
    cases u with
    | empty => simp [nodeEq, specEq]
    | node y l2 r2 h2 => simp [nodeEq, specEq]
  | node x l r h ihl ihr =>
    intro u
    cases u with
    | empty => simp [nodeEq, specEq]
    | node y l2 r2 h2 =>
      rw [nodeEq]
      by_cases hxy : x = y
      · rw [if_pos hxy]
        cases hbl : nodeEq l l2 with
        | error err =>
          rw [except_bind_error]
          simp only [specEq]
          constructor
          · intro hcon; exact Except.noConfusion hcon
          · rintro ⟨-, hl2, -⟩
            have h2 := (ihl l2).2 hl2
            rw [hbl] at h2
            exact Except.noConfusion h2
        | ok b =>
          rw [except_bind_ok]
          cases b with
          | true =>
            rw [if_pos rfl]
            simp only [specEq]
            constructor
            · intro h2; exact ⟨hxy, (ihl l2).1 hbl, (ihr r2).1 h2⟩
            · rintro ⟨-, -, h2⟩; exact (ihr r2).2 h2
          | false =>
            rw [if_neg (by simp)]
            simp only [specEq]
            constructor
            · intro hcon
              exact absurd (Except.ok.inj hcon) (by simp [except_pure_eq])
            · rintro ⟨-, hl2, -⟩
              have h2 := (ihl l2).2 hl2
              rw [hbl] at h2
              exact absurd (Except.ok.inj h2) (by simp)
      · rw [if_neg hxy]
        simp only [specEq]
        constructor
        · intro hcon
          exact absurd (Except.ok.inj hcon) (by simp)
        · rintro ⟨hx, -, -⟩
          exact absurd hx hxy

/-- Characterization of `AVLTree.__eq__`'s `True` answers: the height and
length fast-reject passes, and the roots compare structurally equal. -/
theorem treeEq_ok_iff [DecidableEq α] (t u : Node α) :
    treeEq t u = .ok true ↔ t.height = u.height ∧ t.length = u.length ∧ specEq t u := by
  rw [treeEq]
  by_cases hc : t.height = u.height ∧ t.length = u.length
  · rw [if_pos hc, nodeEq_ok_iff]
    constructor
    · intro h2; exact ⟨hc.1, hc.2, h2⟩
    · rintro ⟨-, -, h2⟩; exact h2
  · rw [if_neg hc]
    constructor
    · intro h2
      exact absurd (Except.ok.inj h2) (by simp)
    · rintro ⟨h1, h2, -⟩
      exact absurd ⟨h1, h2⟩ hc

end Node

/-- The four rotations the rebalancing dispatch can perform. -/
inductive Rot where
  | left : Rot
  | right : Rot
  | leftRight : Rot
  | rightLeft : Rot
deriving DecidableEq, Repr

namespace Node

variable {α : Type}

/-- Instrumented `_balance_tree_if_unbalanced`: same dispatch, also reporting
which rotation fired. -/
def balanceI (t : Node α) : Node α × List Rot :=
  if t.bf = 2 ∧ t.left.bf = -1 then (t.rotateLeftRight, [.leftRight])
  else if t.bf = -2 ∧ t.right.bf = 1 then (t.rotateRightLeft, [.rightLeft])
  else if t.bf = -2 then (t.rotateLeft, [.left])
  else if t.bf = 2 then (t.rotateRight, [.right])
  else (t, [])

/-- Instrumented `insert`: same computation, also reporting the rotations
performed, bottom-up. -/
def insertI [LinearOrder α] : Node α → α → Node α × List Rot
  | .empty, e => (.node e .empty .empty 1, [])
  | .node x l r h, e =>
    if e > x then
      let p := r.insertI e
      let q := balanceI (Node.node x l p.1 h).updateHeight
      (q.1, p.2 ++ q.2)
    else if e < x then
      let p := l.insertI e
      let q := balanceI (Node.node x p.1 r h).updateHeight
      (q.1, p.2 ++ q.2)
    else
      let q := balanceI (Node.node x l r h).updateHeight
      (q.1, q.2)

/-- Instrumented bulk construction. -/
def fromListI [LinearOrder α] (xs : List α) : Node α × List Rot :=
  xs.foldl (fun acc e => ((acc.1.insertI e).1, acc.2 ++ (acc.1.insertI e).2)) (.empty, [])

theorem balanceI_fst (t : Node α) : (balanceI t).1 = t.balanceIfUnbalanced := by
  rw [balanceI, balanceIfUnbalanced]
  split_ifs <;> rfl

/-- The instrumentation does not change the tree `insert` computes. -/
theorem insertI_fst [LinearOrder α] : ∀ (t : Node α) (e : α),
    (t.insertI e).1 = t.insert e := by
  intro t
  induction t with
  | empty => intro e; rfl
  | node x l r h ihl ihr =>
    intro e
    rw [insertI, insert]
    split_ifs with h1 h2 <;> simp only [balanceI_fst, balancedTree, ihl, ihr]

end Node
end AVLPy

namespace AVLPy

open Node

/-- **C1** (counterexample). The claim asserts `clear()` succeeds on every
tree, including the already-empty tree and trees with a one-child node.  In
the source `_EmptyAVLNode` defines no `clear` method, so `self.root.clear()`
on the empty tree raises `AttributeError`, and `_AVLNode.clear` on a
non-leaf node calls `self.left.clear()` even when `left` is the sentinel —
so clearing the two-entry tree `[10, 20]` raises as well. -/
theorem avl_c1_counterexample :
    (Node.empty : Node Int).treeClearM = (some .attributeError, .empty) ∧
    (fromList ([10, 20] : List Int)).treeClearM
      = (some .attributeError, fromList [10, 20]) := by
  decide

/-- **C1** (amended): `clear()` succeeds — leaving the root Empty with
length 0 and all four traversals empty — exactly on the non-empty trees in
which every Filled position has both children Empty or both Filled; on every
other tree (the empty tree and any tree with a one-child node included) it
raises `AttributeError`, since `_EmptyAVLNode` defines no `clear`. -/
theorem avl_c1 {α : Type} (t : Node α) :
    (t.treeClearM.1 = none ↔ t.clearable = true) ∧
    (t.clearable = true → t.treeClearM = (none, Node.empty)) ∧
    (t.treeClearM.1 ≠ none → t.treeClearM.1 = some PyErr.attributeError) ∧
    (Node.empty : Node α).length = 0 ∧ (Node.empty : Node α).inorder = [] ∧
    (Node.empty : Node α).preorder = [] ∧ (Node.empty : Node α).postorder = [] ∧
    (Node.empty : Node α).bfs = [] := by
  refine ⟨?_, ?_, ?_, rfl, rfl, rfl, rfl, rfl⟩
  · rw [treeClearM_eq]
    by_cases hc : t.clearable = true
    · rw [if_pos hc]
      simp [hc]
    · rw [if_neg hc]
      simp [hc]
  · intro hc
    rw [treeClearM_eq, if_pos hc]
  · rw [treeClearM_eq]
    by_cases hc : t.clearable = true
    · rw [if_pos hc]
      intro hcon
      exact absurd rfl hcon
    · rw [if_neg hc]
      intro _
      rfl

theorem avl_c1_witness : (fromList ([1] : List Int)).treeClearM = (none, Node.empty) :=
  (avl_c1 (fromList ([1] : List Int))).2.1 (by decide)

/-- **C2** (counterexample). The claim says `min()`/`max()` on an empty tree
fail with the KeyError NotFound condition; the source delegates to
`self.root.min()` where the empty root `_EmptyAVLNode` defines no `min` or
`max`, so the failure is an `AttributeError`, a different exception class. -/
theorem avl_c2_counterexample :
    treeMin (Node.empty : Node Int) = .error .attributeError ∧
    treeMax (Node.empty : Node Int) = .error .attributeError ∧
    PyErr.attributeError ≠ PyErr.keyError := by
  decide

/-- **C2** (amended): `min()` and `max()` on an empty tree do fail, but with
`AttributeError` (the sentinel has no such methods) rather than the KeyError
NotFound condition raised by search/delete/pred/succ. -/
theorem avl_c2 (α : Type) :
    treeMin (Node.empty : Node α) = .error .attributeError ∧
    treeMax (Node.empty : Node α) = .error .attributeError :=
  ⟨rfl, rfl⟩

/-- **C3** (counterexample). The claim says tree equality always returns a
boolean on validly constructed trees.  Comparing the trees built from
`[10, 5]` and `[10, 20]` passes the height/length fast-reject, the root
entries match, and then `_AVLNode.__eq__` evaluates `self.left.entry` with
`other.left` being the sentinel — raising `AttributeError`. -/
theorem avl_c3_counterexample :
    treeEq (fromList ([10, 5] : List Int)) (fromList ([10, 20] : List Int))
      = .error .attributeError := by
  decide

/-- **C3** (amended): tree equality returns `True` iff the two trees have
the same height, the same length, and structurally equal roots (in the
spec's sense, `specEq`); but it does not always return a boolean — the
recursive comparison raises `AttributeError` when a Filled position is
compared against an Empty one after the entries above matched. -/
theorem avl_c3 {α : Type} [DecidableEq α] (t u : Node α) :
    treeEq t u = .ok true ↔ t.height = u.height ∧ t.length = u.length ∧ specEq t u :=
  treeEq_ok_iff t u

/-- **C4** (counterexample). The claim asserts failure atomicity for every
public call other than bulk construction.  `clear()` violates it: on the
tree built from `[2, 1, 3, 4]` it clears the left leaf (dropping entry 1),
then raises `AttributeError` in the right subtree, leaving the mutated tree
behind. -/
theorem avl_c4_counterexample :
    ((fromList ([2, 1, 3, 4] : List Int)).treeClearM).1 = some PyErr.attributeError ∧
    ((fromList ([2, 1, 3, 4] : List Int)).treeClearM).2
      ≠ fromList ([2, 1, 3, 4] : List Int) := by
  decide

/-- **C4** (amended): for every reachable tree, every public call other than
bulk construction and `clear()` is failure-atomic.  `delete` of an absent
entry raises and leaves the tree exactly as it was (the in-place entry
substitution on the match path never fails, because the maximum of a sorted
left subtree is always present in it); `search`, `pred`, `succ`, `min` and
`max` perform no assignment at all, which is why they are embedded as pure
functions of the tree.  A failed `clear()`, by contrast, can drop
already-cleared subtrees. -/
theorem avl_c4 {α : Type} [LinearOrder α] (t : Node α) (hr : Reached t) (e : α)
    (err : PyErr) : (t.treeDeleteM e).1 = some err → (t.treeDeleteM e).2 = t := by
  intro herr
  have hs := reached_sorted hr
  simp only [treeDeleteM] at herr ⊢
  cases hp : t.deleteM e with
  | mk res st =>
    rw [hp] at herr
    cases res with
    | ok n => exact Option.noConfusion (show (none : Option PyErr) = some err from herr)
    | error err2 =>
      have h2 := deleteM_atomic t hs e err2 (by rw [hp])
      rw [hp] at h2
      have hst : st = t := h2
      show st = t
      exact hst

theorem avl_c4_witness : ((Node.empty : Node Int).treeDeleteM 0).2 = Node.empty :=
  avl_c4 Node.empty Reached.empty 0 PyErr.keyError (by decide)

/-- **C5** (counterexample). The claim asserts the height/balance invariant
after every public mutating call on any tree built by public operations.
Calling `clear()` on the tree built from `[2, 1, 3, 4]` raises after
dropping the left leaf, and the tree it leaves behind is reachable yet has a
root balance factor of -2. -/
theorem avl_c5_counterexample :
    Reached ((fromList ([2, 1, 3, 4] : List Int)).treeClearM).2 ∧
    ¬ ((fromList ([2, 1, 3, 4] : List Int)).treeClearM).2.AvlInv :=
  ⟨Reached.clear _ (built_reached (built_fromList _)), by decide⟩

/-- **C5** (amended): after every public mutating call that completes
without raising — insert, successful delete, successful clear, bulk
construction — every Filled position satisfies
`height = 1 + max(left.height, right.height)` with balance factor in
`{-1, 0, 1}`, and the Empty position has height 0.  A `clear()` that raises
partway can leave a reachable tree violating the balance invariant. -/
theorem avl_c5 {α : Type} [LinearOrder α] (t : Node α) (hb : Built t) :
    t.AvlInv ∧ (Node.empty : Node α).height = 0 :=
  ⟨(built_avl_sorted hb).1, rfl⟩

theorem avl_c5_witness :
    (fromList ([10, 20, 30] : List Int)).AvlInv ∧ (Node.empty : Node Int).height = 0 :=
  avl_c5 _ (built_fromList _)

/-- **C6** (confirmed): every tree reachable by public operations — whether
the calls completed or raised partway — satisfies the BST order invariant,
and equivalently its in-order traversal is strictly ascending. -/
theorem avl_c6 {α : Type} [LinearOrder α] (t : Node α) (hr : Reached t) :
    t.BST ∧ t.inorder.Sorted (· < ·) :=
  ⟨(bst_iff_sorted t).2 (reached_sorted hr), reached_sorted hr⟩

theorem avl_c6_witness :
    (fromList ([2, 1, 3] : List Int)).BST ∧
    (fromList ([2, 1, 3] : List Int)).inorder.Sorted (· < ·) :=
  avl_c6 _ (built_reached (built_fromList _))

/-- **C7** (confirmed): inserting 10, 20, 30 in order into an empty tree
performs exactly one rotation, a single left rotation; the resulting tree
has in-order traversal `[10, 20, 30]`, root entry 20 and height 2. -/
theorem avl_c7 :
    fromListI ([10, 20, 30] : List Int) = (fromList [10, 20, 30], [Rot.left]) ∧
    (fromList ([10, 20, 30] : List Int)).inorder = [10, 20, 30] ∧
    (fromList ([10, 20, 30] : List Int)).entryOpt = some 20 ∧
    (fromList ([10, 20, 30] : List Int)).height = 2 := by
  decide

/-- **C8** (confirmed): on every reachable tree, `pred(e)` returns the last
in-order entry strictly below `e` when `e` is present and such an entry
exists (the maximum of the matching node's left subtree, or the threaded
ancestor candidate), and raises KeyError when `e` is absent or has no
predecessor; `succ(e)` mirrors with the first entry strictly above `e`.
On the tree built from `[5, 3, 8, 1, 4, 7, 9]`: `pred(7) = 5`,
`succ(7) = 8`, `min() = 1`, `max() = 9`. -/
theorem avl_c8 :
    (∀ (α : Type) [LinearOrder α] (t : Node α) (e : α), Reached t →
      t.treePred e = predSpec t none e ∧ t.treeSucc e = succSpec t none e) ∧
    treePred (fromList ([5, 3, 8, 1, 4, 7, 9] : List Int)) 7 = .ok 5 ∧
    treeSucc (fromList ([5, 3, 8, 1, 4, 7, 9] : List Int)) 7 = .ok 8 ∧
    treeMin (fromList ([5, 3, 8, 1, 4, 7, 9] : List Int)) = .ok 1 ∧
    treeMax (fromList ([5, 3, 8, 1, 4, 7, 9] : List Int)) = .ok 9 := by
  refine ⟨?_, by decide, by decide, by decide, by decide⟩
  intro α _ t e hr
  have hs := reached_sorted hr
  constructor
  · rw [treePred, pred_spec t .empty e hs (fun cx hcx => Option.noConfusion hcx)]
    rfl
  · rw [treeSucc, succ_spec t .empty e hs (fun cx hcx => Option.noConfusion hcx)]
    rfl

theorem avl_c8_witness :
    (fromList ([1, 2] : List Int)).treePred 2 = predSpec (fromList [1, 2]) none 2 ∧
    (fromList ([1, 2] : List Int)).treePred 2 = .ok 1 :=
  ⟨(avl_c8.1 Int (fromList [1, 2]) 2 (built_reached (built_fromList _))).1, by decide⟩

/-- **C9** (confirmed): inserting an entry already present in a tree built
by public operations returns the very same tree — length, height and
in-order sequence unchanged; the existing entry is neither duplicated nor
overwritten. -/
theorem avl_c9 {α : Type} [LinearOrder α] (t : Node α) (e : α) (hb : Built t)
    (he : e ∈ t.inorder) :
    t.insert e = t ∧ (t.insert e).length = t.length ∧
    (t.insert e).height = t.height ∧ (t.insert e).inorder = t.inorder := by
  obtain ⟨ha, hs⟩ := built_avl_sorted hb
  have h1 := insert_id t ha hs e he
  exact ⟨h1, by rw [h1], by rw [h1], by rw [h1]⟩

theorem avl_c9_witness : (fromList ([1, 2] : List Int)).insert 2 = fromList [1, 2] :=
  (avl_c9 _ 2 (built_fromList _) (by decide)).1

/-- **C10** (confirmed): `traverse(order)` never raises for any selector
string; every string other than `"preorder"`, `"postorder"` and `"bfs"` —
misspellings included, not only the omitted-argument default — falls through
to the in-order traversal. -/
theorem avl_c10 {α : Type} (t : Node α) (s : String)
    (h1 : s ≠ "preorder") (h2 : s ≠ "postorder") (h3 : s ≠ "bfs") :
    t.traverse s = t.inorder := by
  unfold Node.traverse
  rw [if_neg h1, if_neg h2, if_neg h3]

theorem avl_c10_witness : (fromList ([1, 2, 3] : List Int)).traverse "inroder" = [1, 2, 3] := by
  rw [avl_c10 (fromList ([1, 2, 3] : List Int)) "inroder" (by decide) (by decide) (by decide)]
  decide

end AVLPy
